import Mathlib

/-!
Verification of the file-processing core of the yubiage_ui repository
(`yubiage_ui.py`, `ageyub_ui.py`): drag-and-drop classification, the
per-file worker loop of `AgeWorker.run`, collision-safe output naming
(`_find_unique_filename`), key-material loading, temporary-file cleanup
and aggregate result reporting.

Strings are modelled as `List Char` (Python `str` is a sequence of code
points); the filesystem is the finite set of existing file paths,
modelled as a `List FPath`.  The external `age` binary, `os.path.isdir`,
directory-archiving success and the contents of key files are oracles
supplied as explicit environment parameters.  Filesystem primitives that
the code does not guard (`open`, `os.rename`, `os.remove`) are modelled
as succeeding, matching the code paths the claims are about.
-/

abbrev FPath := List Char

/-- Convert a string literal to the `List Char` path representation. -/
def st (x : String) : FPath := x.data

abbrev FS := List FPath

/-- A file exists after creation: set-like insertion into the filesystem. -/
def insertFS (p : FPath) (fs : FS) : FS := p :: fs.filter (fun q => ¬ q = p)

/-- `os.remove` / the disappearing source of `os.rename`. -/
def removeFS (p : FPath) (fs : FS) : FS := fs.filter (fun q => ¬ q = p)

/-- Python `str.lower`, as used on ASCII suffix checks. -/
def pyLower (p : FPath) : FPath := p.map Char.toLower

/-- Python `str.removesuffix`: drops `suf` only when it is literally a suffix. -/
def pyRemovesuffix (p suf : FPath) : FPath :=
  if suf <:+ p then p.take (p.length - suf.length) else p

/-- Python `str.strip` (whitespace from both ends). -/
def pyStrip (p : FPath) : FPath :=
  ((p.dropWhile Char.isWhitespace).reverse.dropWhile Char.isWhitespace).reverse

/-- `os.path.basename` (POSIX): the part after the last slash. -/
def basenameP (p : FPath) : FPath :=
  (p.reverse.takeWhile (fun c => ¬ c = '/')).reverse

/-- `os.path.dirname` (POSIX): everything before the last slash, with
trailing slashes stripped unless the head is all slashes. -/
def dirnameP (p : FPath) : FPath :=
  let head := p.take (p.length - (basenameP p).length)
  if head.all (fun c => c = '/') then head
  else (head.reverse.dropWhile (fun c => c = '/')).reverse

/-- `os.path.join` for the two-argument POSIX cases the code uses. -/
def joinP (a b : FPath) : FPath :=
  if b.head? = some '/' then b
  else if a = [] then b
  else if a.getLast? = some '/' then a ++ b
  else a ++ '/' :: b

/-- `os.path.dirname(p) or os.getcwd()`. -/
def dirOrCwd (cwd p : FPath) : FPath :=
  let d := dirnameP p
  if d = [] then cwd else d

/-- `os.path.splitext` applied (as in the code) to a basename: split at the
last dot unless every character before it is a dot. -/
def splitextP (p : FPath) : FPath × FPath :=
  match p.reverse.findIdx? (fun c => c = '.') with
  | none => (p, [])
  | some j =>
    let i := p.length - 1 - j
    if (p.take i).all (fun c => c = '.') then (p, [])
    else (p.take i, p.drop i)

/-- Most-significant-first decimal digits, with explicit fuel so that the
kernel can evaluate it. -/
def natCharsCore : Nat → Nat → FPath
  | 0, _ => []
  | fuel + 1, n =>
    if n = 0 then [] else natCharsCore fuel (n / 10) ++ [Nat.digitChar (n % 10)]

/-- Decimal digit characters of a natural number: the model of Python
`str(n)` / f-string interpolation of a nonnegative integer. -/
def natChars (n : Nat) : FPath :=
  if n = 0 then ['0'] else natCharsCore n n

/-- `int` on a digit string (the model of `int(match.group(1))`). -/
def natOfDigits (ds : FPath) : Nat :=
  ds.foldl (fun a c => a * 10 + (c.toNat - '0'.toNat)) 0

/-- The regex ` \((\d+)\)$` of `_find_unique_filename`: if `name` ends in
a space, an opening parenthesis, one or more digits and a closing
parenthesis, return the part before the space and the parsed number. -/
def stripNumSuffix (name : FPath) : Option (FPath × Nat) :=
  match name.reverse with
  | ')' :: r1 =>
    let dsr := r1.takeWhile Char.isDigit
    if dsr = [] then none
    else
      match r1.drop dsr.length with
      | '(' :: ' ' :: prer => some (prer.reverse, natOfDigits dsr.reverse)
      | _ => none
  | _ => none

/-- The candidate name `f"{base_name_without_suffix} ({start_num}){ext}"`
joined back onto the directory. -/
def fCand (d base ext : FPath) (n : Nat) : FPath :=
  joinP d (base ++ ' ' :: '(' :: natChars n ++ ')' :: ext)

/-- The `while True` search of `_find_unique_filename`, with enough fuel to
reach a name that is not on disk (the loop terminates because only finitely
many names exist). -/
def findFrom (fs : FS) (d base ext : FPath) (n : Nat) : Nat → FPath
  | 0 => fCand d base ext n
  | fuel + 1 =>
    if fCand d base ext n ∈ fs then findFrom fs d base ext (n + 1) fuel
    else fCand d base ext n

/-- `AgeWorker._find_unique_filename` (yubiage_ui.py): append ` (n)` before
the extension, starting from an existing parenthesized number plus one when
present, until the name is free. -/
def find_unique_filename (fs : FS) (path : FPath) : FPath :=
  if path ∈ fs then
    let d := dirnameP path
    let filename := basenameP path
    let ne := splitextP filename
    match stripNumSuffix ne.1 with
    | some pk => findFrom fs d pk.1 ne.2 (pk.2 + 1) (fs.length + 1)
    | none => findFrom fs d ne.1 ne.2 1 (fs.length + 1)
  else path

/-- Decrypt-mode natural output name (both workers, identical line):
`input_path.removesuffix(".age") if input_path.lower().endswith(".age")
else f"{input_path}.decrypted"`. -/
def outBase (input : FPath) : FPath :=
  if st ".age" <:+ pyLower input then pyRemovesuffix input (st ".age")
  else input ++ st ".decrypted"

/-- The staging-name marker `f".temp_decrypted_{os.getpid()}"`;
`pidS` is the rendered process id. -/
def markerP (pidS : FPath) : FPath := st ".temp_decrypted_" ++ pidS

/-- The decrypt staging path `f"{output_path_base}.temp_decrypted_{os.getpid()}"`. -/
def tempDecPath (pidS input : FPath) : FPath := outBase input ++ markerP pidS

/-- The per-item recipients file
`os.path.join(os.path.dirname(input_path) or os.getcwd(),
f".temp_recipients_{os.getpid()}.txt")`. -/
def tempRecPath (cwd pidS input : FPath) : FPath :=
  joinP (dirOrCwd cwd input) (st ".temp_recipients_" ++ pidS ++ st ".txt")

/-- One key file's contribution:
`"".join([line for line in key_f if not line.strip().startswith('#')]).strip()`. -/
def keyFileContent (klines : FPath → List FPath) (k : FPath) : FPath :=
  pyStrip ((klines k).filter (fun ln => ¬ (pyStrip ln).head? = some '#')).flatten

/-- Everything written to the temporary recipients file: each existing key
file whose non-comment content is nonempty contributes that content plus a
newline. -/
def recipientsContent (klines : FPath → List FPath) (fs : FS) (keys : List FPath) :
    FPath :=
  (keys.filterMap (fun k =>
    if k ∈ fs then
      let c := keyFileContent klines k
      if c = [] then none else some (c ++ ['\n'])
    else none)).flatten

/-- Worker mode (`self.mode`). -/
inductive Mode where
  | encrypt
  | decrypt
deriving DecidableEq

def Mode.isEncrypt : Mode → Bool
  | .encrypt => true
  | .decrypt => false

/-- Rendering of a Python `int` (the exit code) in an f-string. -/
def intChars (i : Int) : FPath :=
  if i < 0 then '-' :: natChars i.natAbs else natChars i.toNat

/-- Observable behaviour of one `age` invocation: its exit code, its
(decoded) standard error, and whether it created the `-o` output file. -/
structure ItemEnv where
  exitCode : Int
  stderr : FPath
  writesOut : Bool
deriving DecidableEq

/-- `error_msg if error_msg else f"Failed, exit code: {return_code}"`,
where `error_msg` is the stripped stderr. -/
def exitMsg (ie : ItemEnv) : FPath :=
  if pyStrip ie.stderr = [] then st "Failed, exit code: " ++ intChars ie.exitCode
  else pyStrip ie.stderr

/-- Observable worker events: `error.emit`, `progress_update.emit`, and a
subprocess launch (tagged with the loop index it occurs in). -/
inductive Ev where
  | err (file msg : FPath)
  | prog (q : ℚ)
  | invoke (idx : Nat) (cmd : List FPath)
deriving DecidableEq

/-- Environment of a worker run: key-file contents, working directory,
rendered pid, the dropped keys, per-invocation tool behaviour, and the
directory/archiving oracles used by ageyub_ui. -/
structure Ctx where
  klines : FPath → List FPath
  cwd : FPath
  pidS : FPath
  keys : List FPath
  ienv : Nat → ItemEnv
  isDir : FPath → Bool
  archOk : FPath → Bool
  archMsg : FPath → FPath

/-- Result of the per-item `try` block, plus the assigned temp-file names
the `finally` block will look at. -/
structure ItemRes where
  evs : List Ev
  fs : FS
  ok : Bool
  tRec : Option FPath
  tDec : Option FPath

/-- Accumulated worker state: filesystem, emitted events, success count. -/
structure St where
  fs : FS
  evs : List Ev
  succ : Nat

/-- The triple carried by the `finished` signal. -/
structure Fin3 where
  succ : Nat
  total : Nat
  needsClear : Bool
deriving DecidableEq

/-- The `-i` identity arguments of the decrypt command. -/
def identityArgs (keys : List FPath) : List FPath :=
  keys.flatMap (fun k => [st "-i", k])

/-- The `try` block of one iteration of `AgeWorker.run` in yubiage_ui.py:
build the command, create the recipients file (encrypt), invoke the tool,
and post-process (decrypt renames the staging file to a collision-free
name).  Exceptions become an `Ev.err` naming `os.path.basename(input_path)`. -/
def ybItemTry (ctx : Ctx) (mode : Mode) (idx : Nat) (fs : FS) (input : FPath) :
    ItemRes :=
  match mode with
  | .encrypt =>
    let temp_out := input ++ st ".age"
    if ctx.keys = [] then
      ⟨[Ev.err (basenameP input) (st "No recipients.")], fs, false, none, none⟩
    else
      let temp_rec := tempRecPath ctx.cwd ctx.pidS input
      let fs1 := insertFS temp_rec fs
      if recipientsContent ctx.klines fs1 ctx.keys = [] then
        ⟨[Ev.err (basenameP input) (st "Recipient key file is empty or invalid.")],
          fs1, false, some temp_rec, none⟩
      else
        let cmd := [st "age", st "-a", st "-o", temp_out, st "-R", temp_rec, input]
        let ie := ctx.ienv idx
        let fs2 := if ie.writesOut then insertFS temp_out fs1 else fs1
        if ie.exitCode = 0 then
          ⟨[Ev.invoke idx cmd], fs2, true, some temp_rec, none⟩
        else
          ⟨[Ev.invoke idx cmd, Ev.err (basenameP input) (exitMsg ie)],
            fs2, false, some temp_rec, none⟩
  | .decrypt =>
    let base := outBase input
    let temp_dec := tempDecPath ctx.pidS input
    if ctx.keys = [] then
      ⟨[Ev.err (basenameP input) (st "No identity.")], fs, false, none, some temp_dec⟩
    else
      let cmd := [st "age", st "-d", st "-o", temp_dec] ++ identityArgs ctx.keys ++ [input]
      let ie := ctx.ienv idx
      let fs1 := if ie.writesOut then insertFS temp_dec fs else fs
      if ie.exitCode = 0 then
        if st ".age" <:+ pyLower input then
          if temp_dec ∈ fs1 then
            let fin := find_unique_filename fs1 base
            ⟨[Ev.invoke idx cmd], insertFS fin (removeFS temp_dec fs1), true,
              none, some temp_dec⟩
          else
            ⟨[Ev.invoke idx cmd,
               Ev.err (basenameP input)
                 (st "Age returned success, but output file not found: " ++ temp_dec)],
              fs1, false, none, some temp_dec⟩
        else
          ⟨[Ev.invoke idx cmd], fs1, true, none, some temp_dec⟩
      else
        ⟨[Ev.invoke idx cmd, Ev.err (basenameP input) (exitMsg ie)],
          fs1, false, none, some temp_dec⟩

/-- The `finally` block shared by both workers: emit `(i+1)/total`, remove
the recipients file if present, and in decrypt mode remove the staging
file if present. -/
def itemFinally (mode : Mode) (idx total : Nat) (r : ItemRes) : List Ev × FS × Bool :=
  let evs := r.evs ++ [Ev.prog ((idx + 1 : ℚ) / (total : ℚ))]
  let fsA := match r.tRec with
    | some t => if t ∈ r.fs then removeFS t r.fs else r.fs
    | none => r.fs
  let fsB :=
    if mode = Mode.decrypt then
      match r.tDec with
      | some t => if t ∈ fsA then removeFS t fsA else fsA
      | none => fsA
    else fsA
  (evs, fsB, r.ok)

/-- One full iteration (try/except/finally) of yubiage_ui's loop. -/
def ybItem (ctx : Ctx) (mode : Mode) (idx total : Nat) (fs : FS) (input : FPath) :
    List Ev × FS × Bool :=
  itemFinally mode idx total (ybItemTry ctx mode idx fs input)

/-- The `for i, input_path in enumerate(processed_files)` loop of
yubiage_ui's `AgeWorker.run`. -/
def ybLoop (ctx : Ctx) (mode : Mode) (total : Nat) :
    Nat → List FPath → St → St
  | _, [], stt => stt
  | i, input :: rest, stt =>
    let r := ybItem ctx mode i total stt.fs input
    ybLoop ctx mode total (i + 1) rest
      ⟨r.2.1, stt.evs ++ r.1, stt.succ + (if r.2.2 then 1 else 0)⟩

/-- `AgeWorker.run` of yubiage_ui.py.  Nothing inside the loop can raise
outside the per-item `try`, so the outer `except` is unreachable and the
run always reports `total = len(files_to_process)`. -/
def yb_run (ctx : Ctx) (mode : Mode) (inputs : List FPath) (fs0 : FS) : St × Fin3 :=
  let total := inputs.length
  let stE := ybLoop ctx mode total 0 inputs ⟨fs0, [], 0⟩
  (stE, ⟨stE.succ, total, mode.isEncrypt⟩)

/-- `_create_tar_archive`'s target path:
`os.path.join(os.path.dirname(dir_path) or os.getcwd(),
f"{dir_name}_temp_{os.getpid()}.tar.gz")`. -/
def ag_tarName (ctx : Ctx) (dirPath : FPath) : FPath :=
  joinP (dirOrCwd ctx.cwd dirPath)
    (basenameP dirPath ++ st "_temp_" ++ ctx.pidS ++ st ".tar.gz")

/-- State accumulated by ageyub_ui's pre-processing stage. -/
structure PreOut where
  processed : List FPath
  fmap : List (FPath × FPath)
  tars : List FPath
  fs : FS
  evs : List Ev

/-- Result of pre-processing: either the work list or an aborting
exception (events already emitted, filesystem so far, message). -/
inductive PreRes where
  | ok (o : PreOut)
  | fail (evs : List Ev) (fs : FS) (msg : FPath)

/-- Python-dict lookup where later insertions shadow earlier ones; the
map is built by consing, so the first hit is the most recent insertion.
The `[]` case is unreachable: every processed path was inserted as a key. -/
def lookupFM : List (FPath × FPath) → FPath → FPath
  | [], p => p
  | e :: rest, p => if e.1 = p then e.2 else lookupFM rest p

/-- The encrypt-mode pre-processing loop of ageyub_ui's `AgeWorker.run`:
archive each directory (emitting a `0.01` progress tick first), recording
the archive for cleanup; an archiving failure aborts the whole batch. -/
def agPreGo (ctx : Ctx) : List FPath → PreOut → PreRes
  | [], acc => .ok acc
  | p :: rest, acc =>
    if ctx.isDir p then
      let evs1 := acc.evs ++ [Ev.prog (1 / 100)]
      if ctx.archOk p then
        let tar := ag_tarName ctx p
        agPreGo ctx rest
          ⟨acc.processed ++ [tar], (tar, p) :: acc.fmap, acc.tars ++ [tar],
            insertFS tar acc.fs, evs1⟩
      else
        .fail evs1 acc.fs
          (st "Failed to create TAR archive for " ++ basenameP p ++ st ": "
            ++ ctx.archMsg p)
    else
      agPreGo ctx rest ⟨acc.processed ++ [p], (p, p) :: acc.fmap, acc.tars, acc.fs, acc.evs⟩

/-- ageyub_ui pre-processing: archiving for encrypt mode, identity map for
decrypt mode. -/
def agPre (ctx : Ctx) (mode : Mode) (inputs : List FPath) (fs0 : FS) : PreRes :=
  match mode with
  | .encrypt => agPreGo ctx inputs ⟨[], [], [], fs0, []⟩
  | .decrypt => .ok ⟨inputs, (inputs.map (fun p => (p, p))).reverse, [], fs0, []⟩

/-- The `try` block of one iteration of ageyub_ui's `AgeWorker.run`.
Differences from yubiage_ui: encrypt renames the raw output of a
directory-origin item to `<original>.Dir.age` (silently skipping if the
raw output is missing), and decrypt renames `*.dir.age` outputs to
`<base>.tar.gz` without a collision search. -/
def agItemTry (ctx : Ctx) (mode : Mode) (fmap : List (FPath × FPath)) (idx : Nat)
    (fs : FS) (input : FPath) : ItemRes :=
  match mode with
  | .encrypt =>
    let temp_out := input ++ st ".age"
    if ctx.keys = [] then
      ⟨[Ev.err (basenameP input) (st "No recipients.")], fs, false, none, none⟩
    else
      let temp_rec := tempRecPath ctx.cwd ctx.pidS input
      let fs1 := insertFS temp_rec fs
      if recipientsContent ctx.klines fs1 ctx.keys = [] then
        ⟨[Ev.err (basenameP input) (st "Recipient key file is empty or invalid.")],
          fs1, false, some temp_rec, none⟩
      else
        let cmd := [st "age", st "-a", st "-o", temp_out, st "-R", temp_rec, input]
        let ie := ctx.ienv idx
        let fs2 := if ie.writesOut then insertFS temp_out fs1 else fs1
        if ie.exitCode = 0 then
          let orig := lookupFM fmap input
          let fs3 :=
            if ctx.isDir orig then
              if temp_out ∈ fs2 then
                insertFS (orig ++ st ".Dir.age") (removeFS temp_out fs2)
              else fs2
            else fs2
          ⟨[Ev.invoke idx cmd], fs3, true, some temp_rec, none⟩
        else
          ⟨[Ev.invoke idx cmd, Ev.err (basenameP input) (exitMsg ie)],
            fs2, false, some temp_rec, none⟩
  | .decrypt =>
    let base := outBase input
    let temp_dec := tempDecPath ctx.pidS input
    if ctx.keys = [] then
      ⟨[Ev.err (basenameP input) (st "No identity.")], fs, false, none, some temp_dec⟩
    else
      let cmd := [st "age", st "-d", st "-o", temp_dec] ++ identityArgs ctx.keys ++ [input]
      let ie := ctx.ienv idx
      let fs1 := if ie.writesOut then insertFS temp_dec fs else fs
      if ie.exitCode = 0 then
        let fs2 :=
          if st ".dir.age" <:+ pyLower input then
            if temp_dec ∈ fs1 then
              insertFS (base ++ st ".tar.gz") (removeFS temp_dec fs1)
            else fs1
          else fs1
        ⟨[Ev.invoke idx cmd], fs2, true, none, some temp_dec⟩
      else
        ⟨[Ev.invoke idx cmd, Ev.err (basenameP input) (exitMsg ie)],
          fs1, false, none, some temp_dec⟩

/-- One full iteration (try/except/finally) of ageyub_ui's loop. -/
def agItem (ctx : Ctx) (mode : Mode) (fmap : List (FPath × FPath)) (idx total : Nat)
    (fs : FS) (input : FPath) : List Ev × FS × Bool :=
  itemFinally mode idx total (agItemTry ctx mode fmap idx fs input)

/-- The per-file loop of ageyub_ui's `AgeWorker.run`. -/
def agLoop (ctx : Ctx) (mode : Mode) (fmap : List (FPath × FPath)) (total : Nat) :
    Nat → List FPath → St → St
  | _, [], stt => stt
  | i, input :: rest, stt =>
    let r := agItem ctx mode fmap i total stt.fs input
    agLoop ctx mode fmap total (i + 1) rest
      ⟨r.2.1, stt.evs ++ r.1, stt.succ + (if r.2.2 then 1 else 0)⟩

/-- `AgeWorker.run` of ageyub_ui.py: pre-processing (which may abort the
batch with `total = 0`), the per-file loop, then best-effort removal of
every registered archive. -/
def ag_run (ctx : Ctx) (mode : Mode) (inputs : List FPath) (fs0 : FS) : St × Fin3 :=
  match agPre ctx mode inputs fs0 with
  | .fail evs fs msg =>
    (⟨fs, evs ++ [Ev.err (st "Pre-process") (st "Pre-process Error: " ++ msg)], 0⟩,
      ⟨0, 0, mode.isEncrypt⟩)
  | .ok o =>
    let total := o.processed.length
    let stE := agLoop ctx mode o.fmap total 0 o.processed ⟨o.fs, o.evs, 0⟩
    (⟨o.tars.foldl (fun f t => removeFS t f) stE.fs, stE.evs, stE.succ⟩,
      ⟨stE.succ, total, mode.isEncrypt⟩)

/-- A directory-tree entry as seen by `os.walk`: entry name (no slashes)
plus children for directories. -/
inductive FNode where
  | file (nm : FPath)
  | dir (nm : FPath) (children : List FNode)

/-- What a dropped path resolves to on disk. -/
inductive PathKind where
  | file
  | dir (children : List FNode)
  | absent

def isFileK (kindOf : FPath → PathKind) (p : FPath) : Bool :=
  match kindOf p with
  | .file => true
  | _ => false

def isDirK (kindOf : FPath → PathKind) (p : FPath) : Bool :=
  match kindOf p with
  | .dir _ => true
  | _ => false

/-- The files yielded for one `os.walk` directory level, filtered by
`if not file_name.startswith('.')`. -/
def filesHere (cur : FPath) : List FNode → List FPath
  | [] => []
  | .file nm :: rest =>
    if nm.head? = some '.' then filesHere cur rest
    else joinP cur nm :: filesHere cur rest
  | .dir _ _ :: rest => filesHere cur rest

/-- The files of all sub-directory levels, in `os.walk` top-down order
(note: hidden directories are *not* pruned, only hidden file names are). -/
def subdirFiles (cur : FPath) : List FNode → List FPath
  | [] => []
  | .file _ :: rest => subdirFiles cur rest
  | .dir nm cs :: rest =>
    (filesHere (joinP cur nm) cs ++ subdirFiles (joinP cur nm) cs) ++ subdirFiles cur rest

/-- `AgeGUI._get_files_recursive` (yubiage_ui.py): skip hidden top-level
paths, collect plain files, and walk directories collecting non-hidden
file names. -/
def get_files_recursive (kindOf : FPath → PathKind) (paths : List FPath) : List FPath :=
  paths.flatMap (fun p =>
    if (basenameP p).head? = some '.' then []
    else match kindOf p with
      | .file => [p]
      | .dir cs => filesHere p cs ++ subdirFiles p cs
      | .absent => [])

/-- Outcome of a drop on the file target: ignored (key pending / empty),
rejected with an error message before any processing, waiting for keys,
or starting the worker with remembered keys. -/
inductive DropRes where
  | ignored
  | rejected (msg : FPath)
  | awaitKeysDecrypt (files : List FPath)
  | awaitKeysEncrypt (files : List FPath)
  | startEncrypt (files keys : List FPath)
deriving DecidableEq

/-- `AgeGUI._on_files_dropped` of yubiage_ui.py.  The `[]` case is
unreachable (`SingleDropTarget.dropEvent` ignores empty drops). -/
def yb_on_files_dropped (kindOf : FPath → PathKind) (recipients : List FPath)
    (keyPending : Bool) (paths : List FPath) : DropRes :=
  if keyPending then .ignored
  else
    match paths with
    | [] => .ignored
    | p0 :: _ =>
      let has_age := paths.any (fun p => decide (st ".age" <:+ pyLower p))
      let is_dec := has_age
        || paths.all (fun p => isFileK kindOf p && decide (st ".age" <:+ pyLower p))
      if is_dec then
        if paths.length > 1 || isDirK kindOf p0 then
          .rejected (st "One file at a time (no folders)")
        else if ¬ (st ".age" <:+ pyLower p0) || isFileK kindOf p0 = false then
          .rejected (st "The file must be a single .age file.")
        else .awaitKeysDecrypt paths
      else
        let collected := get_files_recursive kindOf paths
        if collected = [] then .rejected (st "No valid files found for encryption.")
        else if collected.any (fun p => decide (st ".age" <:+ pyLower p)) then
          .rejected (st "Do not mix .age file and non-.age file.")
        else if recipients = [] then .awaitKeysEncrypt collected
        else .startEncrypt collected recipients

/-- `AgeGUI._on_files_dropped` of ageyub_ui.py: the explicit mixed-batch
check, then mode selection on the raw dropped paths. -/
def ag_on_files_dropped (isDir : FPath → Bool) (recipients : List FPath)
    (keyPending : Bool) (paths : List FPath) : DropRes :=
  if keyPending then .ignored
  else
    let has_dirs := paths.any isDir
    let has_age := paths.any (fun p => decide (st ".age" <:+ pyLower p))
    if (has_dirs && has_age)
        || (has_age && paths.any (fun p =>
              (¬ st ".age" <:+ pyLower p) && ¬ isDir p)) then
      .rejected (st "Do not mix .age file and directory/other file.")
    else if has_age then .awaitKeysDecrypt paths
    else if recipients = [] then .awaitKeysEncrypt paths
    else .startEncrypt paths recipients

/-- A well-formed directory-entry name: nonempty, no path separator. -/
def okName (nm : FPath) : Bool := (¬ nm = []) && nm.all (fun c => ¬ c = '/')

mutual

/-- Well-formedness of one tree entry. -/
def wfNode : FNode → Bool
  | .file nm => okName nm
  | .dir nm cs => okName nm && wfNodes cs

/-- Well-formedness of a list of tree entries. -/
def wfNodes : List FNode → Bool
  | [] => true
  | n :: rest => wfNode n && wfNodes rest

end

/-- The progress values of a trace, in emission order. -/
def progsOf (evs : List Ev) : List ℚ :=
  evs.filterMap (fun e => match e with | .prog q => some q | _ => none)

/-- The `(file, message)` error emissions of a trace, in order. -/
def errsOf (evs : List Ev) : List (FPath × FPath) :=
  evs.filterMap (fun e => match e with | .err f m => some (f, m) | _ => none)

/-- The loop indices at which the external tool was launched. -/
def invokesOf (evs : List Ev) : List Nat :=
  evs.filterMap (fun e => match e with | .invoke i _ => some i | _ => none)

/-- What an input path becomes in ageyub_ui's processed list: directories
are replaced by their staged archive. -/
def procOf (ctx : Ctx) (p : FPath) : FPath :=
  if ctx.isDir p then ag_tarName ctx p else p

/-- Whether ageyub_ui's pre-processing stage raises: encrypt mode with
some directory whose archiving fails. -/
def preFailsA (ctx : Ctx) (mode : Mode) (inputs : List FPath) : Bool :=
  mode.isEncrypt && inputs.any (fun p => ctx.isDir p && ! ctx.archOk p)

/-- The processed list of ageyub_ui's loop after a successful
pre-processing stage. -/
def processedA (ctx : Ctx) (mode : Mode) (inputs : List FPath) : List FPath :=
  match mode with
  | .encrypt => inputs.map (procOf ctx)
  | .decrypt => inputs

/-- A concrete environment used to instantiate the worker theorems:
one recipient key with content, a tool that exits 0 and writes its
output, and a single directory `d`. -/
def ctxW : Ctx :=
  { klines := fun _ => [st "age1abc"],
    cwd := st "/w",
    pidS := st "7",
    keys := [st "k.pub"],
    ienv := fun _ => ⟨0, st "", true⟩,
    isDir := fun p => decide (p = st "d"),
    archOk := fun _ => true,
    archMsg := fun _ => st "boom" }

/-- Environment of the progress counterexample: no keys were dropped, so
every item fails immediately, and `d` is a directory to archive. -/
def ctxC3 : Ctx :=
  { klines := fun _ => [],
    cwd := st "/w",
    pidS := st "7",
    keys := [],
    ienv := fun _ => ⟨1, st "", false⟩,
    isDir := fun p => decide (p = st "d"),
    archOk := fun _ => true,
    archMsg := fun _ => st "boom" }

/-- A 101-item encrypt batch whose first item is a directory. -/
def inputsC3 : List FPath :=
  st "d" :: List.replicate 100 (st "f")

/-- Environment of the C8 counterexample: the tool exits 0 but never
writes its output file. -/
def ctxC8 : Ctx :=
  { klines := fun _ => [st "age1abc"],
    cwd := st "/w",
    pidS := st "7",
    keys := [st "k.pub"],
    ienv := fun _ => ⟨0, st "", false⟩,
    isDir := fun p => decide (p = st "d"),
    archOk := fun _ => true,
    archMsg := fun _ => st "boom" }

example : pyRemovesuffix (st "doc.age") (st ".age") = st "doc" := by decide
example : pyRemovesuffix (st "doc.AGE") (st ".age") = st "doc.AGE" := by decide
example : basenameP (st "a/b.txt") = st "b.txt" := by decide
example : dirnameP (st "a/b.txt") = st "a" := by decide
example : dirnameP (st "b.txt") = st "" := by decide
example : joinP (st "") (st "x") = st "x" := by decide
example : joinP (st "a") (st "x") = st "a/x" := by decide
example : splitextP (st "report.txt") = (st "report", st ".txt") := by decide
example : splitextP (st "archive.tar.gz") = (st "archive.tar", st ".gz") := by decide
example : splitextP (st ".hidden") = (st ".hidden", st "") := by decide
example : stripNumSuffix (st "report (3)") = some (st "report", 3) := by decide
example : stripNumSuffix (st "report") = none := by decide
example : stripNumSuffix (st "report (a)") = none := by decide
example : natChars 0 = st "0" := by decide
example : natChars 42 = st "42" := by decide

/-! ### Decimal rendering: agreement with `Nat.digits`, injectivity -/

lemma natCharsCore_eq_digits :
    ∀ fuel n : Nat, n ≤ fuel →
      natCharsCore fuel n = ((Nat.digits 10 n).map Nat.digitChar).reverse := by
  intro fuel
  induction fuel with
  | zero =>
    intro n hn
    interval_cases n
    simp [natCharsCore]
  | succ f ih =>
    intro n hn
    by_cases hz : n = 0
    · subst hz; simp [natCharsCore]
    · rw [natCharsCore, if_neg hz, ih (n / 10) (by omega),
        Nat.digits_def' (by norm_num : (1:ℕ) < 10) (Nat.pos_of_ne_zero hz)]
      simp

lemma natChars_eq_digits (n : Nat) :
    natChars n = if n = 0 then ['0'] else ((Nat.digits 10 n).map Nat.digitChar).reverse := by
  unfold natChars
  by_cases hz : n = 0
  · simp [hz]
  · rw [if_neg hz, if_neg hz, natCharsCore_eq_digits n n le_rfl]

lemma digitChar_inj_lt : ∀ a < 10, ∀ b < 10, Nat.digitChar a = Nat.digitChar b → a = b := by
  decide

lemma digitChar_isDigit : ∀ a < 10, (Nat.digitChar a).isDigit = true := by decide

lemma map_digitChar_inj :
    ∀ l₁ l₂ : List ℕ, (∀ x ∈ l₁, x < 10) → (∀ x ∈ l₂, x < 10) →
      l₁.map Nat.digitChar = l₂.map Nat.digitChar → l₁ = l₂ := by
  intro l₁
  induction l₁ with
  | nil => intro l₂ _ _ h; cases l₂ <;> simp_all
  | cons a t ih =>
    intro l₂ h₁ h₂ h
    cases l₂ with
    | nil => simp_all
    | cons b t₂ =>
      simp only [List.map_cons, List.cons.injEq] at h
      have hab : a = b :=
        digitChar_inj_lt a (h₁ a (by simp)) b (h₂ b (by simp)) h.1
      subst hab
      have := ih t₂ (fun x hx => h₁ x (by simp [hx])) (fun x hx => h₂ x (by simp [hx])) h.2
      simp [this]

lemma natChars_inj : ∀ {n m : Nat}, natChars n = natChars m → n = m := by
  have key : ∀ n : Nat, n ≠ 0 →
      ((Nat.digits 10 n).map Nat.digitChar).reverse = ['0'] → False := by
    intro n hn h
    have h' : (Nat.digits 10 n).map Nat.digitChar = ['0'] := by
      have := congrArg List.reverse h
      simpa using this
    have hd : Nat.digits 10 n = [0] := by
      refine map_digitChar_inj (Nat.digits 10 n) [0]
        (fun x hx => Nat.digits_lt_base (by norm_num) hx) (by simp) ?_
      simpa using h'
    have := Nat.ofDigits_digits 10 n
    rw [hd] at this
    simp [Nat.ofDigits] at this
    omega
  intro n m h
  rw [natChars_eq_digits, natChars_eq_digits] at h
  by_cases hn : n = 0 <;> by_cases hm : m = 0
  · omega
  · rw [if_pos hn, if_neg hm] at h; exact absurd h.symm (fun hh => (key m hm hh).elim)
  · rw [if_neg hn, if_pos hm] at h; exact absurd h (fun hh => (key n hn hh).elim)
  · rw [if_neg hn, if_neg hm] at h
    have hd : Nat.digits 10 n = Nat.digits 10 m := by
      refine map_digitChar_inj _ _
        (fun x hx => Nat.digits_lt_base (by norm_num) hx)
        (fun x hx => Nat.digits_lt_base (by norm_num) hx) ?_
      have := congrArg List.reverse h
      simpa using this
    have h1 := Nat.ofDigits_digits 10 n
    have h2 := Nat.ofDigits_digits 10 m
    rw [hd] at h1
    omega

lemma natChars_all_digit : ∀ (n : Nat), ∀ c ∈ natChars n, c.isDigit = true := by
  intro n c hc
  rw [natChars_eq_digits] at hc
  by_cases hz : n = 0
  · simp [hz] at hc; simp [hc]
  · rw [if_neg hz, List.mem_reverse, List.mem_map] at hc
    obtain ⟨d, hd, rfl⟩ := hc
    exact digitChar_isDigit d (Nat.digits_lt_base (by norm_num) hd)

lemma isDigit_ne_rparen {c : Char} (h : c.isDigit = true) : ¬ c = ')' := by
  intro hc; subst hc; exact absurd h (by decide)

lemma isDigit_ne_slash {c : Char} (h : c.isDigit = true) : ¬ c = '/' := by
  intro hc; subst hc; exact absurd h (by decide)

/-- Cancellation around a separator character that occurs in neither prefix. -/
lemma append_cons_sep_inj {c : Char} :
    ∀ (a b u v : FPath), c ∉ a → c ∉ b → a ++ c :: u = b ++ c :: v →
      a = b ∧ u = v := by
  intro a
  induction a with
  | nil =>
    intro b u v _ hb h
    cases b with
    | nil => simpa using h
    | cons x tb =>
      simp only [List.nil_append, List.cons_append, List.cons.injEq] at h
      exact absurd (h.1 ▸ List.mem_cons_self x tb) hb
  | cons x ta ih =>
    intro b u v ha hb h
    cases b with
    | nil =>
      simp only [List.cons_append, List.nil_append, List.cons.injEq] at h
      exact absurd (h.1.symm ▸ List.mem_cons_self x ta) ha
    | cons y tb =>
      simp only [List.cons_append, List.cons.injEq] at h
      obtain ⟨rfl, h2⟩ := h
      have := ih tb u v (fun hm => ha (List.mem_cons_of_mem _ hm))
        (fun hm => hb (List.mem_cons_of_mem _ hm)) h2
      simp [this.1, this.2]

/-! ### `_find_unique_filename`: the search returns a name not on disk -/

lemma slash_not_mem_basenameP (p : FPath) : '/' ∉ basenameP p := by
  unfold basenameP
  intro h
  rw [List.mem_reverse] at h
  have := List.mem_takeWhile_imp h
  simp at this

lemma splitextP_fst_subset (p : FPath) : (splitextP p).1 ⊆ p := by
  unfold splitextP
  rcases hf : p.reverse.findIdx? (fun c => c = '.') with _ | j
  · simp
  · simp only
    split
    · simp
    · simpa using List.take_subset _ _

lemma splitextP_snd_suffix (p : FPath) : (splitextP p).2 <:+ p := by
  unfold splitextP
  rcases hf : p.reverse.findIdx? (fun c => c = '.') with _ | j
  · simp
  · simp only
    split
    · simp
    · simpa using List.drop_suffix _ _

lemma stripNumSuffix_eq {nm pre : FPath} {k : Nat}
    (h : stripNumSuffix nm = some (pre, k)) :
    ∃ ds : FPath, ds ≠ [] ∧ (∀ c ∈ ds, c.isDigit = true) ∧
      nm = pre ++ ' ' :: '(' :: ds ++ [')'] := by
  unfold stripNumSuffix at h
  split at h
  case h_2 => simp at h
  case h_1 r1 heq =>
    simp only at h
    split at h
    · simp at h
    · rename_i hne
      split at h
      case h_2 => simp at h
      case h_1 c2 prer heq2 =>
        simp only [Option.some.injEq, Prod.mk.injEq] at h
        set A := r1.takeWhile Char.isDigit with hA
        obtain ⟨t, ht⟩ : A <+: r1 := List.takeWhile_prefix _
        have hd2 : r1.drop A.length = t := by rw [← ht, List.drop_left]
        have htp : t = '(' :: ' ' :: prer := by rw [← hd2, heq2]
        have hr1 : r1 = A ++ '(' :: ' ' :: prer := by rw [← ht, htp]
        refine ⟨A.reverse, by simpa using hne,
          fun c hc => List.mem_takeWhile_imp (l := r1) (by simpa [← hA] using hc), ?_⟩
        have hnm : nm = (')' :: r1).reverse := by rw [← heq, List.reverse_reverse]
        rw [hnm, hr1, ← h.1]
        simp

lemma joinP_inj (d : FPath) {x y : FPath}
    (hx : ¬ x.head? = some '/') (hy : ¬ y.head? = some '/')
    (h : joinP d x = joinP d y) : x = y := by
  unfold joinP at h
  rw [if_neg hx, if_neg hy] at h
  split at h
  · exact h
  · split at h
    · exact List.append_cancel_left h
    · simpa using List.append_cancel_left h

lemma rparen_not_mem_natChars (n : Nat) : ')' ∉ natChars n := by
  intro hm
  exact isDigit_ne_rparen (natChars_all_digit n _ hm) rfl

lemma fCand_inj {d base ext : FPath} (hb : ¬ base.head? = some '/') :
    ∀ {n m : Nat}, fCand d base ext n = fCand d base ext m → n = m := by
  intro n m h
  unfold fCand at h
  have hx : ∀ k : Nat, ¬ (base ++ ' ' :: '(' :: natChars k ++ ')' :: ext).head? = some '/' := by
    intro k
    cases base with
    | nil => simp
    | cons c t =>
      simp only [List.cons_append, List.head?_cons]
      intro hh
      simp only [Option.some.injEq] at hh
      exact hb (by simp [hh])
  have h2 := joinP_inj d (hx n) (hx m) h
  have h3 := List.append_cancel_right h2
  have h4 := List.append_cancel_left h3
  simp only [List.cons.injEq, true_and] at h4
  exact natChars_inj h4

lemma exists_free_fCand (fs : FS) {d base ext : FPath}
    (hb : ¬ base.head? = some '/') (n : Nat) :
    ∃ k < fs.length + 1, fCand d base ext (n + k) ∉ fs := by
  by_contra hcon
  push_neg at hcon
  set L := (List.range (fs.length + 1)).map (fun k => fCand d base ext (n + k)) with hL
  have hnd : L.Nodup := by
    refine List.Nodup.map ?_ (List.nodup_range _)
    intro k₁ k₂ hkk
    have := fCand_inj hb hkk
    omega
  have hsub : ∀ x ∈ L, x ∈ fs := by
    intro x hx
    rw [hL, List.mem_map] at hx
    obtain ⟨k, hk, rfl⟩ := hx
    exact hcon k (List.mem_range.1 hk)
  have h1 : L.toFinset.card = L.length := List.toFinset_card_of_nodup hnd
  have h2 : L.toFinset ⊆ fs.toFinset := by
    intro x hx
    exact List.mem_toFinset.2 (hsub x (List.mem_toFinset.1 hx))
  have h3 := Finset.card_le_card h2
  have h4 := fs.toFinset_card_le
  have h5 : L.length = fs.length + 1 := by simp [hL]
  omega

lemma findFrom_free (fs : FS) (d base ext : FPath) :
    ∀ (fuel n : Nat), (∃ k < fuel, fCand d base ext (n + k) ∉ fs) →
      findFrom fs d base ext n fuel ∉ fs := by
  intro fuel
  induction fuel with
  | zero => intro n h; omega
  | succ f ih =>
    intro n h
    by_cases hmem : fCand d base ext n ∈ fs
    · rw [findFrom, if_pos hmem]
      obtain ⟨k, hk, hfree⟩ := h
      refine ih (n + 1) ⟨k - 1, ?_, ?_⟩
      · rcases Nat.eq_zero_or_pos k with hk0 | hk0
        · subst hk0; simp at hfree; exact absurd hmem hfree
        · omega
      · rcases Nat.eq_zero_or_pos k with hk0 | hk0
        · subst hk0; simp at hfree; exact absurd hmem hfree
        · have : n + 1 + (k - 1) = n + k := by omega
          rw [this]; exact hfree
    · rw [findFrom, if_neg hmem]
      exact hmem

/-- The collision search of `_find_unique_filename` never returns a name
that exists on disk: if the requested path is free it is returned as is,
and otherwise the numbered candidates are scanned until a free one. -/
lemma find_unique_filename_not_mem (fs : FS) (path : FPath) :
    find_unique_filename fs path ∉ fs := by
  unfold find_unique_filename
  by_cases hp : path ∈ fs
  · rw [if_pos hp]
    simp only
    have hslash : ∀ x, x ⊆ basenameP path → ¬ (x : FPath).head? = some '/' := by
      intro x hsub hh
      cases x with
      | nil => simp at hh
      | cons c t =>
        simp only [List.head?_cons, Option.some.injEq] at hh
        exact slash_not_mem_basenameP path (hh ▸ hsub (List.mem_cons_self c t))
    split
    · rename_i pk hpk
      obtain ⟨p1, k1⟩ := pk
      obtain ⟨ds, _, _, hnm⟩ := stripNumSuffix_eq hpk
      refine findFrom_free fs _ _ _ _ _ (exists_free_fCand fs ?_ _)
      refine hslash p1 (fun x hx => splitextP_fst_subset (basenameP path) ?_)
      rw [hnm]
      simp [hx]
    · rename_i hpk
      refine findFrom_free fs _ _ _ _ _ (exists_free_fCand fs ?_ _)
      exact hslash (splitextP (basenameP path)).1 (splitextP_fst_subset (basenameP path))
  · rw [if_neg hp]; exact hp

lemma findFrom_shape (fs : FS) (d base ext : FPath) :
    ∀ (fuel n : Nat), ∃ m, n ≤ m ∧ findFrom fs d base ext n fuel = fCand d base ext m := by
  intro fuel
  induction fuel with
  | zero => intro n; exact ⟨n, le_rfl, rfl⟩
  | succ f ih =>
    intro n
    by_cases hmem : fCand d base ext n ∈ fs
    · obtain ⟨m, hm, he⟩ := ih (n + 1)
      exact ⟨m, by omega, by rw [findFrom, if_pos hmem]; exact he⟩
    · exact ⟨n, le_rfl, by rw [findFrom, if_neg hmem]⟩

/-- C4.  `_find_unique_filename` never returns a path that exists on disk;
when the requested name exists, the result is the base name with ` (m)`
inserted before the extension, where the counter starts at `1`, or at
`k + 1` when the name already ends in ` (k)`; concretely `report.txt`
collides to `report (1).txt`, then `report (2).txt`, and `report (3).txt`
continues at `report (4).txt` rather than restarting. -/
theorem C4_collision_resolution :
    (∀ (fs : FS) (path : FPath), find_unique_filename fs path ∉ fs)
    ∧ (∀ (fs : FS) (path : FPath), path ∈ fs →
        (stripNumSuffix (splitextP (basenameP path)).1 = none →
          ∃ m, 1 ≤ m ∧ find_unique_filename fs path =
            fCand (dirnameP path) (splitextP (basenameP path)).1
              (splitextP (basenameP path)).2 m)
        ∧ ∀ (pre : FPath) (k : Nat),
            stripNumSuffix (splitextP (basenameP path)).1 = some (pre, k) →
            ∃ m, k + 1 ≤ m ∧ find_unique_filename fs path =
              fCand (dirnameP path) pre (splitextP (basenameP path)).2 m)
    ∧ find_unique_filename [st "report.txt"] (st "report.txt") = st "report (1).txt"
    ∧ find_unique_filename [st "report.txt", st "report (1).txt"] (st "report.txt")
        = st "report (2).txt"
    ∧ find_unique_filename [st "report (3).txt"] (st "report (3).txt")
        = st "report (4).txt" := by
  refine ⟨find_unique_filename_not_mem, ?_, by decide, by decide, by decide⟩
  intro fs path hp
  constructor
  · intro hnone
    unfold find_unique_filename
    rw [if_pos hp]
    simp only [hnone]
    exact findFrom_shape fs _ _ _ _ 1
  · intro pre k hsome
    unfold find_unique_filename
    rw [if_pos hp]
    simp only [hsome]
    exact findFrom_shape fs _ _ _ _ (k + 1)

/-- Witness for `C4_collision_resolution`: the hypothesis-bearing middle
conjunct evaluated at a concrete colliding path. -/
theorem C4_collision_resolution_witness :
    ∃ m, 1 ≤ m ∧ find_unique_filename [st "report.txt"] (st "report.txt") =
      fCand (dirnameP (st "report.txt")) (splitextP (basenameP (st "report.txt"))).1
        (splitextP (basenameP (st "report.txt"))).2 m :=
  (C4_collision_resolution.2.1 [st "report.txt"] (st "report.txt")
    (by decide)).1 (by decide)

/-! ### C9: decrypt output naming -/

/-- C9 counterexample: `doc.AGE` is accepted as an encrypted name (its
lowercased form ends in `.age`), but `removesuffix(".age")` is
case-sensitive, so the suffix is *not* stripped: the natural output name
is `doc.AGE`, not `doc`. -/
theorem C9_counterexample :
    (st ".age" <:+ pyLower (st "doc.AGE"))
    ∧ outBase (st "doc.AGE") = st "doc.AGE"
    ∧ ¬ outBase (st "doc.AGE") = st "doc" := by
  decide

lemma lower_suffix_age {input : FPath} (h : st ".age" <:+ input) :
    st ".age" <:+ pyLower input := by
  obtain ⟨s, hs⟩ := h
  refine ⟨s.map Char.toLower, ?_⟩
  rw [← hs]
  unfold pyLower
  rw [List.map_append]
  rfl

/-- C9 amended: the `.age` suffix is stripped exactly when the input ends
in the literal lowercase `.age`; an input accepted as encrypted through a
different capitalization is left entirely unchanged (neither stripped nor
given the `.decrypted` marker); inputs not accepted as encrypted get
`.decrypted` appended. -/
theorem C9_outBase_amended (input : FPath) :
    (st ".age" <:+ input → outBase input = input.take (input.length - 4))
    ∧ (st ".age" <:+ pyLower input → ¬ st ".age" <:+ input → outBase input = input)
    ∧ (¬ st ".age" <:+ pyLower input → outBase input = input ++ st ".decrypted") := by
  refine ⟨?_, ?_, ?_⟩
  · intro h
    unfold outBase
    rw [if_pos (lower_suffix_age h)]
    unfold pyRemovesuffix
    rw [if_pos h]
    rfl
  · intro hl hx
    unfold outBase
    rw [if_pos hl]
    unfold pyRemovesuffix
    rw [if_neg hx]
  · intro hl
    unfold outBase
    rw [if_neg hl]

/-- Witness for `C9_outBase_amended` at the three concrete inputs
`a.age`, `b.AGE`, `c.txt`. -/
theorem C9_outBase_amended_witness :
    outBase (st "a.age") = st "a"
    ∧ outBase (st "b.AGE") = st "b.AGE"
    ∧ outBase (st "c.txt") = st "c.txt.decrypted" := by
  refine ⟨?_, ?_, ?_⟩
  · rw [(C9_outBase_amended (st "a.age")).1 (by decide)]
    decide
  · exact (C9_outBase_amended (st "b.AGE")).2.1 (by decide) (by decide)
  · exact (C9_outBase_amended (st "c.txt")).2.2 (by decide)

/-! ### C6: mixed drops are rejected before any processing -/

/-- C6.  A drop that contains some path with the encrypted suffix and some
plain file (not a directory) is rejected by both GUIs' drop handlers
before any worker is created: the handler returns a rejection, so
`_start_process` is never reached and no subprocess can be launched. -/
theorem C6_mixed_batch_rejected
    (kindOf : FPath → PathKind) (isDir : FPath → Bool)
    (recipients paths : List FPath) (p q : FPath)
    (hp : p ∈ paths) (hq : q ∈ paths)
    (hpAge : st ".age" <:+ pyLower p)
    (hqAge : ¬ st ".age" <:+ pyLower q)
    (hqDir : isDir q = false) :
    (∃ m, yb_on_files_dropped kindOf recipients false paths = .rejected m)
    ∧ (∃ m, ag_on_files_dropped isDir recipients false paths = .rejected m) := by
  have hpq : ¬ p = q := by
    intro he
    exact hqAge (he ▸ hpAge)
  constructor
  · cases paths with
    | nil => exact absurd hp (by simp)
    | cons p0 rest =>
      have hage : (p0 :: rest).any (fun r => decide (st ".age" <:+ pyLower r)) = true := by
        rw [List.any_eq_true]
        exact ⟨p, hp, by simpa using hpAge⟩
      have hlen : (p0 :: rest).length > 1 := by
        cases rest with
        | nil =>
          simp only [List.mem_singleton] at hp hq
          exact absurd (hp.trans hq.symm) hpq
        | cons r1 r2 => simp
      refine ⟨st "One file at a time (no folders)", ?_⟩
      unfold yb_on_files_dropped
      simp only [Bool.false_eq_true, if_false, hage, Bool.true_or, if_pos]
      rw [if_pos]
      simp only [Bool.or_eq_true, decide_eq_true_eq]
      exact Or.inl hlen
  · refine ⟨st "Do not mix .age file and directory/other file.", ?_⟩
    unfold ag_on_files_dropped
    have hage : paths.any (fun r => decide (st ".age" <:+ pyLower r)) = true := by
      rw [List.any_eq_true]
      exact ⟨p, hp, by simpa using hpAge⟩
    simp only [hage]
    simp
    intro _
    exact ⟨q, hq, hqAge, hqDir⟩

/-- Witness for `C6_mixed_batch_rejected`: a two-path drop of `a.age` and
`b.txt` with no directories. -/
theorem C6_mixed_batch_rejected_witness :
    (∃ m, yb_on_files_dropped (fun _ => PathKind.file) [] false
        [st "a.age", st "b.txt"] = .rejected m)
    ∧ (∃ m, ag_on_files_dropped (fun _ => false) [] false
        [st "a.age", st "b.txt"] = .rejected m) :=
  C6_mixed_batch_rejected (fun _ => PathKind.file) (fun _ => false) []
    [st "a.age", st "b.txt"] (st "a.age") (st "b.txt")
    (by decide) (by decide) (by decide) (by decide) rfl

/-! ### C10: hidden files are excluded from encrypt collection -/

lemma takeWhile_append_all {p : Char → Bool} :
    ∀ (l₁ l₂ : FPath), (∀ a ∈ l₁, p a = true) →
      (l₁ ++ l₂).takeWhile p = l₁ ++ l₂.takeWhile p := by
  intro l₁
  induction l₁ with
  | nil => simp
  | cons a t ih =>
    intro l₂ h
    rw [List.cons_append, List.takeWhile_cons, if_pos (h a (by simp)), ih l₂
      (fun x hx => h x (by simp [hx])), List.cons_append]

lemma all_rev_no_slash {nm : FPath} (h : ∀ c ∈ nm, ¬ c = '/') :
    ∀ a ∈ nm.reverse, (decide (¬ a = '/')) = true := by
  intro a ha
  simp only [decide_eq_true_eq]
  exact h a (List.mem_reverse.1 ha)

lemma basenameP_no_slash {nm : FPath} (h : ∀ c ∈ nm, ¬ c = '/') : basenameP nm = nm := by
  unfold basenameP
  have h3 := takeWhile_append_all (p := fun c => decide (¬ c = '/')) nm.reverse []
    (all_rev_no_slash h)
  simp only [List.append_nil, List.takeWhile_nil] at h3
  rw [h3, List.reverse_reverse]

lemma basenameP_append_slash (u nm : FPath) (h : ∀ c ∈ nm, ¬ c = '/') :
    basenameP (u ++ '/' :: nm) = nm := by
  unfold basenameP
  rw [List.reverse_append, List.reverse_cons, List.append_assoc,
    takeWhile_append_all (p := fun c => decide (¬ c = '/')) nm.reverse _
      (all_rev_no_slash h)]
  simp [List.takeWhile_cons]

lemma basenameP_joinP (cur nm : FPath) (h1 : ¬ nm = []) (h2 : ∀ c ∈ nm, ¬ c = '/') :
    basenameP (joinP cur nm) = nm := by
  unfold joinP
  have hhead : ¬ nm.head? = some '/' := by
    cases nm with
    | nil => simp
    | cons c t =>
      simp only [List.head?_cons, Option.some.injEq]
      exact h2 c (by simp)
  rw [if_neg hhead]
  split
  · exact basenameP_no_slash h2
  · split
    · rename_i hc hlast
      obtain ⟨u, hu⟩ := List.getLast?_eq_some_iff.1 hlast
      rw [hu, List.append_assoc]
      exact basenameP_append_slash u nm h2
    · exact basenameP_append_slash cur nm h2

lemma okName_spec {nm : FPath} (h : okName nm = true) :
    ¬ nm = [] ∧ ∀ c ∈ nm, ¬ c = '/' := by
  unfold okName at h
  simp only [Bool.and_eq_true, decide_eq_true_eq, List.all_eq_true] at h
  exact ⟨h.1, fun c hc => by simpa using h.2 c hc⟩

lemma filesHere_no_hidden (cur : FPath) :
    ∀ cs : List FNode, wfNodes cs = true → ∀ p ∈ filesHere cur cs,
      ¬ (basenameP p).head? = some '.' := by
  intro cs
  induction cs with
  | nil => simp [filesHere]
  | cons n rest ih =>
    intro hwf p hp
    rw [wfNodes, Bool.and_eq_true] at hwf
    cases n with
    | file nm =>
      rw [filesHere] at hp
      split at hp
      · exact ih hwf.2 p hp
      · rename_i hnm
        rcases List.mem_cons.1 hp with he | hm
        · obtain ⟨hne, hns⟩ := okName_spec (by simpa [wfNode] using hwf.1)
          rw [he, basenameP_joinP cur nm hne hns]
          exact hnm
        · exact ih hwf.2 p hm
    | dir nm cs2 =>
      rw [filesHere] at hp
      exact ih hwf.2 p hp

lemma subdirFiles_no_hidden :
    ∀ (N : Nat), ∀ cs : List FNode, sizeOf cs ≤ N → wfNodes cs = true →
      ∀ (cur : FPath), ∀ p ∈ subdirFiles cur cs,
        ¬ (basenameP p).head? = some '.' := by
  intro N
  induction N with
  | zero =>
    intro cs hsz
    exfalso
    cases cs with
    | nil => simp at hsz
    | cons n rest => simp only [List.cons.sizeOf_spec] at hsz; omega
  | succ N ih =>
    intro cs hsz hwf cur p hp
    cases cs with
    | nil => simp [subdirFiles] at hp
    | cons n rest =>
      rw [wfNodes, Bool.and_eq_true] at hwf
      cases n with
      | file nm =>
        rw [subdirFiles] at hp
        refine ih rest ?_ hwf.2 cur p hp
        simp only [List.cons.sizeOf_spec] at hsz
        omega
      | dir nm cs2 =>
        rw [subdirFiles] at hp
        have hwfn : wfNodes cs2 = true := by
          have := hwf.1
          rw [wfNode, Bool.and_eq_true] at this
          exact this.2
        simp only [List.cons.sizeOf_spec, FNode.dir.sizeOf_spec] at hsz
        rcases List.mem_append.1 hp with hp1 | hp2
        · rcases List.mem_append.1 hp1 with hp3 | hp4
          · exact filesHere_no_hidden (joinP cur nm) cs2 hwfn p hp3
          · exact ih cs2 (by omega) hwfn (joinP cur nm) p hp4
        · exact ih rest (by omega) hwf.2 cur p hp2

lemma get_files_recursive_no_hidden (kindOf : FPath → PathKind)
    (hwf : ∀ p cs, kindOf p = PathKind.dir cs → wfNodes cs = true)
    (paths : List FPath) :
    ∀ q ∈ get_files_recursive kindOf paths, ¬ (basenameP q).head? = some '.' := by
  intro q hq
  unfold get_files_recursive at hq
  rw [List.mem_flatMap] at hq
  obtain ⟨p, hpmem, hq⟩ := hq
  split at hq
  · simp at hq
  · rename_i hhid
    split at hq
    · rw [List.mem_singleton] at hq
      rw [hq]
      exact hhid
    · rename_i cs hcs
      rcases List.mem_append.1 hq with h1 | h2
      · exact filesHere_no_hidden p cs (hwf p cs hcs) q h1
      · exact subdirFiles_no_hidden (sizeOf cs) cs le_rfl (hwf p cs hcs) p q h2
    · simp at hq

lemma yb_drop_encrypt_files (kindOf : FPath → PathKind)
    (recipients paths files keys : List FPath)
    (h : yb_on_files_dropped kindOf recipients false paths = .startEncrypt files keys
       ∨ yb_on_files_dropped kindOf recipients false paths = .awaitKeysEncrypt files) :
    files = get_files_recursive kindOf paths := by
  unfold yb_on_files_dropped at h
  rw [if_neg (by simp)] at h
  cases paths with
  | nil => rcases h with h | h <;> simp at h
  | cons p0 rest =>
    simp only at h
    split at h
    · split at h
      · rcases h with h | h <;> simp at h
      · split at h
        · rcases h with h | h <;> simp at h
        · rcases h with h | h <;> simp at h
    · split at h
      · rcases h with h | h <;> simp at h
      · split at h
        · rcases h with h | h <;> simp at h
        · split at h
          · rcases h with h | h
            · simp at h
            · simp only [DropRes.awaitKeysEncrypt.injEq] at h
              exact h.symm
          · rcases h with h | h
            · simp only [DropRes.startEncrypt.injEq] at h
              exact h.1.symm
            · simp at h

/-- C10.  The recursive encrypt collection excludes every path whose base
name begins with a dot: hidden top-level paths are skipped and hidden file
names inside walked directories are never collected; consequently the file
list that a drop hands to the encrypt worker (directly or after waiting
for keys) contains no hidden file.  Well-formedness asks only that
directory-entry names are nonempty and slash-free. -/
theorem C10_hidden_files_excluded (kindOf : FPath → PathKind)
    (paths recipients files keys : List FPath)
    (hwf : ∀ p cs, kindOf p = PathKind.dir cs → wfNodes cs = true) :
    (∀ q ∈ get_files_recursive kindOf paths, ¬ (basenameP q).head? = some '.')
    ∧ (yb_on_files_dropped kindOf recipients false paths = .startEncrypt files keys →
        ∀ q ∈ files, ¬ (basenameP q).head? = some '.')
    ∧ (yb_on_files_dropped kindOf recipients false paths = .awaitKeysEncrypt files →
        ∀ q ∈ files, ¬ (basenameP q).head? = some '.') := by
  refine ⟨get_files_recursive_no_hidden kindOf hwf paths, ?_, ?_⟩
  · intro h q hq
    rw [yb_drop_encrypt_files kindOf recipients paths files keys (Or.inl h)] at hq
    exact get_files_recursive_no_hidden kindOf hwf paths q hq
  · intro h q hq
    rw [yb_drop_encrypt_files kindOf recipients paths files keys (Or.inr h)] at hq
    exact get_files_recursive_no_hidden kindOf hwf paths q hq

/-- Witness for `C10_hidden_files_excluded`: a drop of a directory `d`
containing a visible file, a hidden file, and a hidden subdirectory with a
visible file inside. -/
theorem C10_hidden_files_excluded_witness :
    (get_files_recursive
        (fun p => if p = st "d"
          then PathKind.dir
            [FNode.file (st "ok.txt"), FNode.file (st ".secret"),
             FNode.dir (st ".hid") [FNode.file (st "inner.txt")]]
          else PathKind.absent)
        [st "d", st ".hidden-top"]).all
      (fun q => decide (¬ (basenameP q).head? = some '.')) = true := by
  rw [List.all_eq_true]
  intro q hq
  have h := C10_hidden_files_excluded
    (fun p => if p = st "d"
      then PathKind.dir
        [FNode.file (st "ok.txt"), FNode.file (st ".secret"),
         FNode.dir (st ".hid") [FNode.file (st "inner.txt")]]
      else PathKind.absent)
    [st "d", st ".hidden-top"] [] [] []
    (by
      intro p cs hpc
      dsimp only at hpc
      by_cases hp : p = st "d"
      · rw [if_pos hp] at hpc
        cases hpc
        decide
      · rw [if_neg hp] at hpc
        cases hpc)
  exact decide_eq_true (h.1 q hq)

/-! ### Per-item trace shape (both workers) -/

lemma progsOf_append (a b : List Ev) : progsOf (a ++ b) = progsOf a ++ progsOf b := by
  unfold progsOf; rw [List.filterMap_append]

lemma errsOf_append (a b : List Ev) : errsOf (a ++ b) = errsOf a ++ errsOf b := by
  unfold errsOf; rw [List.filterMap_append]

lemma invokesOf_append (a b : List Ev) :
    invokesOf (a ++ b) = invokesOf a ++ invokesOf b := by
  unfold invokesOf; rw [List.filterMap_append]

lemma ybItemTry_no_prog (ctx : Ctx) (mode : Mode) (idx : Nat) (fs : FS) (input : FPath) :
    progsOf (ybItemTry ctx mode idx fs input).evs = [] := by
  unfold ybItemTry
  cases mode <;> dsimp only <;> split_ifs <;> simp [progsOf]

lemma agItemTry_no_prog (ctx : Ctx) (mode : Mode) (fmap : List (FPath × FPath))
    (idx : Nat) (fs : FS) (input : FPath) :
    progsOf (agItemTry ctx mode fmap idx fs input).evs = [] := by
  unfold agItemTry
  cases mode <;> dsimp only <;> split_ifs <;> simp [progsOf]

lemma ybItemTry_err_names (ctx : Ctx) (mode : Mode) (idx : Nat) (fs : FS) (input : FPath) :
    ∀ e ∈ errsOf (ybItemTry ctx mode idx fs input).evs, e.1 = basenameP input := by
  unfold ybItemTry
  cases mode <;> dsimp only <;> split_ifs <;> simp [errsOf]

lemma agItemTry_err_names (ctx : Ctx) (mode : Mode) (fmap : List (FPath × FPath))
    (idx : Nat) (fs : FS) (input : FPath) :
    ∀ e ∈ errsOf (agItemTry ctx mode fmap idx fs input).evs, e.1 = basenameP input := by
  unfold agItemTry
  cases mode <;> dsimp only <;> split_ifs <;> simp [errsOf]

lemma ybItemTry_invoke_idx (ctx : Ctx) (mode : Mode) (idx : Nat) (fs : FS) (input : FPath) :
    ∀ j ∈ invokesOf (ybItemTry ctx mode idx fs input).evs, j = idx := by
  unfold ybItemTry
  cases mode <;> dsimp only <;> split_ifs <;> simp [invokesOf]

lemma ybItem_progs (ctx : Ctx) (mode : Mode) (idx total : Nat) (fs : FS) (input : FPath) :
    progsOf (ybItem ctx mode idx total fs input).1 = [((idx + 1 : ℚ)) / (total : ℚ)] := by
  unfold ybItem itemFinally
  rw [progsOf_append, ybItemTry_no_prog]
  simp [progsOf]

lemma agItem_progs (ctx : Ctx) (mode : Mode) (fmap : List (FPath × FPath))
    (idx total : Nat) (fs : FS) (input : FPath) :
    progsOf (agItem ctx mode fmap idx total fs input).1 = [((idx + 1 : ℚ)) / (total : ℚ)] := by
  unfold agItem itemFinally
  rw [progsOf_append, agItemTry_no_prog]
  simp [progsOf]

lemma ybItem_err_names (ctx : Ctx) (mode : Mode) (idx total : Nat) (fs : FS) (input : FPath) :
    ∀ e ∈ errsOf (ybItem ctx mode idx total fs input).1, e.1 = basenameP input := by
  unfold ybItem itemFinally
  intro e he
  rw [errsOf_append] at he
  rcases List.mem_append.1 he with h | h
  · exact ybItemTry_err_names ctx mode idx fs input e h
  · simp [errsOf] at h

lemma agItem_err_names (ctx : Ctx) (mode : Mode) (fmap : List (FPath × FPath))
    (idx total : Nat) (fs : FS) (input : FPath) :
    ∀ e ∈ errsOf (agItem ctx mode fmap idx total fs input).1, e.1 = basenameP input := by
  unfold agItem itemFinally
  intro e he
  rw [errsOf_append] at he
  rcases List.mem_append.1 he with h | h
  · exact agItemTry_err_names ctx mode fmap idx fs input e h
  · simp [errsOf] at h

lemma ybItem_invoke_idx (ctx : Ctx) (mode : Mode) (idx total : Nat) (fs : FS) (input : FPath) :
    ∀ j ∈ invokesOf (ybItem ctx mode idx total fs input).1, j = idx := by
  unfold ybItem itemFinally
  intro j hj
  rw [invokesOf_append] at hj
  rcases List.mem_append.1 hj with h | h
  · exact ybItemTry_invoke_idx ctx mode idx fs input j h
  · simp [invokesOf] at h

/-! ### Loop-level trace lemmas -/

lemma ybLoop_progs (ctx : Ctx) (mode : Mode) (total : Nat) :
    ∀ (l : List FPath) (i : Nat) (stt : St),
      progsOf (ybLoop ctx mode total i l stt).evs
        = progsOf stt.evs
          ++ (List.range l.length).map (fun k : Nat => ((i : ℚ) + (k : ℚ) + 1) / (total : ℚ)) := by
  intro l
  induction l with
  | nil => intro i stt; simp [ybLoop]
  | cons x rest ih =>
    intro i stt
    rw [ybLoop, ih]
    simp only [progsOf_append, ybItem_progs, List.length_cons,
      List.range_succ_eq_map, List.map_cons, List.map_map]
    rw [List.append_assoc]
    congr 1
    rw [List.singleton_append]
    congr 1
    · push_cast
      ring
    · refine List.map_congr_left ?_
      intro k hk
      simp only [Function.comp_apply]
      push_cast
      ring_nf

lemma agLoop_progs (ctx : Ctx) (mode : Mode) (fmap : List (FPath × FPath)) (total : Nat) :
    ∀ (l : List FPath) (i : Nat) (stt : St),
      progsOf (agLoop ctx mode fmap total i l stt).evs
        = progsOf stt.evs
          ++ (List.range l.length).map (fun k : Nat => ((i : ℚ) + (k : ℚ) + 1) / (total : ℚ)) := by
  intro l
  induction l with
  | nil => intro i stt; simp [agLoop]
  | cons x rest ih =>
    intro i stt
    rw [agLoop, ih]
    simp only [progsOf_append, agItem_progs, List.length_cons,
      List.range_succ_eq_map, List.map_cons, List.map_map]
    rw [List.append_assoc]
    congr 1
    rw [List.singleton_append]
    congr 1
    · push_cast
      ring
    · refine List.map_congr_left ?_
      intro k hk
      simp only [Function.comp_apply]
      push_cast
      ring_nf

lemma ybLoop_err_names (ctx : Ctx) (mode : Mode) (total : Nat) :
    ∀ (l : List FPath) (i : Nat) (stt : St),
      ∀ e ∈ errsOf (ybLoop ctx mode total i l stt).evs,
        e ∈ errsOf stt.evs ∨ e.1 ∈ l.map basenameP := by
  intro l
  induction l with
  | nil => intro i stt e he; rw [ybLoop] at he; exact Or.inl he
  | cons x rest ih =>
    intro i stt e he
    rw [ybLoop] at he
    rcases ih (i + 1) _ e he with h | h
    · simp only [errsOf_append] at h
      rcases List.mem_append.1 h with h1 | h2
      · exact Or.inl h1
      · exact Or.inr (by
          rw [List.map_cons]
          exact List.mem_cons.2 (Or.inl (ybItem_err_names ctx mode i total stt.fs x e h2)))
    · exact Or.inr (by rw [List.map_cons]; exact List.mem_cons.2 (Or.inr h))

lemma agLoop_err_names (ctx : Ctx) (mode : Mode) (fmap : List (FPath × FPath)) (total : Nat) :
    ∀ (l : List FPath) (i : Nat) (stt : St),
      ∀ e ∈ errsOf (agLoop ctx mode fmap total i l stt).evs,
        e ∈ errsOf stt.evs ∨ e.1 ∈ l.map basenameP := by
  intro l
  induction l with
  | nil => intro i stt e he; rw [agLoop] at he; exact Or.inl he
  | cons x rest ih =>
    intro i stt e he
    rw [agLoop] at he
    rcases ih (i + 1) _ e he with h | h
    · simp only [errsOf_append] at h
      rcases List.mem_append.1 h with h1 | h2
      · exact Or.inl h1
      · exact Or.inr (by
          rw [List.map_cons]
          exact List.mem_cons.2 (Or.inl (agItem_err_names ctx mode fmap i total stt.fs x e h2)))
    · exact Or.inr (by rw [List.map_cons]; exact List.mem_cons.2 (Or.inr h))

lemma ybLoop_succ_le (ctx : Ctx) (mode : Mode) (total : Nat) :
    ∀ (l : List FPath) (i : Nat) (stt : St),
      (ybLoop ctx mode total i l stt).succ ≤ stt.succ + l.length := by
  intro l
  induction l with
  | nil => intro i stt; rw [ybLoop]; simp
  | cons x rest ih =>
    intro i stt
    rw [ybLoop]
    refine le_trans (ih (i + 1) _) ?_
    simp only [List.length_cons]
    split <;> omega

lemma agLoop_succ_le (ctx : Ctx) (mode : Mode) (fmap : List (FPath × FPath)) (total : Nat) :
    ∀ (l : List FPath) (i : Nat) (stt : St),
      (agLoop ctx mode fmap total i l stt).succ ≤ stt.succ + l.length := by
  intro l
  induction l with
  | nil => intro i stt; rw [agLoop]; simp
  | cons x rest ih =>
    intro i stt
    rw [agLoop]
    refine le_trans (ih (i + 1) _) ?_
    simp only [List.length_cons]
    split <;> omega

/-! ### Pre-processing spec (ageyub_ui) -/

lemma agPreGo_ok_spec (ctx : Ctx) :
    ∀ (l : List FPath) (acc : PreOut),
      l.all (fun p => ! (ctx.isDir p && ! ctx.archOk p)) = true →
      agPreGo ctx l acc = .ok
        { processed := acc.processed ++ l.map (procOf ctx),
          fmap := (l.map (fun p => (procOf ctx p, p))).reverse ++ acc.fmap,
          tars := acc.tars ++ (l.filter ctx.isDir).map (ag_tarName ctx),
          fs := l.foldl
            (fun f p => if ctx.isDir p then insertFS (ag_tarName ctx p) f else f) acc.fs,
          evs := acc.evs
            ++ List.replicate (l.countP ctx.isDir) (Ev.prog (1 / 100)) } := by
  intro l
  induction l with
  | nil => intro acc _; simp [agPreGo]
  | cons p rest ih =>
    intro acc hall
    simp only [List.all_cons, Bool.and_eq_true] at hall
    rw [agPreGo]
    by_cases hd : ctx.isDir p = true
    · have hok : ctx.archOk p = true := by
        have h1 := hall.1
        rw [hd] at h1
        simpa using h1
      rw [if_pos hd, if_pos hok, ih _ hall.2]
      simp only [PreRes.ok.injEq, PreOut.mk.injEq]
      refine ⟨?_, ?_, ?_, ?_, ?_⟩
      · simp [procOf, hd, List.append_assoc]
      · simp [procOf, hd, List.reverse_cons, List.append_assoc]
      · simp [List.filter_cons, hd, List.append_assoc]
      · simp [List.foldl_cons, hd]
      · simp [List.countP_cons, hd, List.replicate_succ, List.append_assoc]
    · rw [if_neg hd, ih _ hall.2]
      simp only [PreRes.ok.injEq, PreOut.mk.injEq]
      have hdf : ctx.isDir p = false := by simpa using hd
      refine ⟨?_, ?_, ?_, ?_, ?_⟩
      · simp [procOf, hdf, List.append_assoc]
      · simp [procOf, hdf, List.reverse_cons, List.append_assoc]
      · simp [List.filter_cons, hdf]
      · simp [List.foldl_cons, hdf]
      · simp [List.countP_cons, hdf]

lemma agPreGo_fail_spec (ctx : Ctx) :
    ∀ (l : List FPath) (acc : PreOut),
      l.any (fun p => ctx.isDir p && ! ctx.archOk p) = true →
      ∃ evs fs msg, agPreGo ctx l acc = .fail evs fs msg := by
  intro l
  induction l with
  | nil => intro acc h; simp at h
  | cons p rest ih =>
    intro acc h
    simp only [List.any_cons, Bool.or_eq_true] at h
    rw [agPreGo]
    by_cases hd : ctx.isDir p = true
    · rw [if_pos hd]
      by_cases hok : ctx.archOk p = true
      · rw [if_pos hok]
        refine ih _ ?_
        rcases h with h1 | h2
        · rw [hd, hok] at h1; simp at h1
        · simpa using h2
      · rw [if_neg hok]
        exact ⟨_, _, _, rfl⟩
    · rw [if_neg hd]
      refine ih _ ?_
      rcases h with h1 | h2
      · rw [Bool.and_eq_true] at h1
        exact absurd h1.1 hd
      · simpa using h2

/-- Pre-processing of `ag_run`: it fails exactly when `preFailsA` says so,
and on success the processed list keeps the batch length. -/
lemma agPre_spec (ctx : Ctx) (mode : Mode) (inputs : List FPath) (fs0 : FS) :
    (preFailsA ctx mode inputs = true →
      ∃ evs fs msg, agPre ctx mode inputs fs0 = .fail evs fs msg)
    ∧ (preFailsA ctx mode inputs = false →
      ∃ o, agPre ctx mode inputs fs0 = .ok o
        ∧ o.processed = processedA ctx mode inputs
        ∧ o.processed.length = inputs.length
        ∧ ∃ k, o.evs = List.replicate k (Ev.prog (1 / 100))) := by
  constructor
  · intro h
    unfold preFailsA at h
    rw [Bool.and_eq_true] at h
    cases mode with
    | decrypt => simp [Mode.isEncrypt] at h
    | encrypt =>
      unfold agPre
      exact agPreGo_fail_spec ctx inputs _ h.2
  · intro h
    cases mode with
    | decrypt =>
      refine ⟨_, rfl, rfl, by simp, 0, by simp⟩
    | encrypt =>
      unfold preFailsA at h
      simp only [Mode.isEncrypt, Bool.true_and] at h
      have hall : inputs.all (fun p => ! (ctx.isDir p && ! ctx.archOk p)) = true := by
        rw [List.all_eq_true]
        intro p hp
        rw [List.any_eq_false] at h
        have h2 := h p hp
        have h3 : (ctx.isDir p && ! ctx.archOk p) = false := eq_false_of_ne_true h2
        simp [h3]
      unfold agPre
      rw [agPreGo_ok_spec ctx inputs _ hall]
      refine ⟨_, rfl, by simp [processedA], ?_, inputs.countP ctx.isDir, by simp⟩
      simp [processedA]

/-! ### C2: aggregate invariant -/

/-- C2.  For every nonempty batch, both workers report
`successCount ≤ totalCount`; yubiage_ui has no fallible pre-processing, so
its `totalCount` is always the batch length and never `0`; ageyub_ui
reports `totalCount = 0` exactly when its pre-processing stage (directory
archiving) raises. -/
theorem C2_success_le_total (ctx : Ctx) (mode : Mode) (inputs : List FPath) (fs0 : FS)
    (hne : ¬ inputs = []) :
    ((yb_run ctx mode inputs fs0).2.succ ≤ (yb_run ctx mode inputs fs0).2.total
      ∧ (yb_run ctx mode inputs fs0).2.total = inputs.length
      ∧ ¬ (yb_run ctx mode inputs fs0).2.total = 0)
    ∧ ((ag_run ctx mode inputs fs0).2.succ ≤ (ag_run ctx mode inputs fs0).2.total
      ∧ ((ag_run ctx mode inputs fs0).2.total = 0 ↔ preFailsA ctx mode inputs = true)) := by
  have hlen0 : ¬ inputs.length = 0 := by
    intro h
    exact hne (List.length_eq_zero.1 h)
  constructor
  · refine ⟨?_, rfl, hlen0⟩
    unfold yb_run
    simpa using ybLoop_succ_le ctx mode inputs.length inputs 0 ⟨fs0, [], 0⟩
  · by_cases hpf : preFailsA ctx mode inputs = true
    · obtain ⟨evs, fs, msg, heq⟩ := (agPre_spec ctx mode inputs fs0).1 hpf
      unfold ag_run
      rw [heq]
      simp [hpf]
    · have hpf' : preFailsA ctx mode inputs = false := eq_false_of_ne_true hpf
      obtain ⟨o, heq, hproc, hlen, k, hevs⟩ := (agPre_spec ctx mode inputs fs0).2 hpf'
      unfold ag_run
      rw [heq]
      constructor
      · simpa using agLoop_succ_le ctx mode o.fmap o.processed.length o.processed 0
          ⟨o.fs, o.evs, 0⟩
      · simp only [hlen, hpf']
        simp [hlen0]
      
/-- Witness for `C2_success_le_total`: a one-file batch. -/
theorem C2_success_le_total_witness :
    ((yb_run ctxW Mode.encrypt [st "a.txt"] [st "a.txt", st "k.pub"]).2.succ
        ≤ (yb_run ctxW Mode.encrypt [st "a.txt"] [st "a.txt", st "k.pub"]).2.total
      ∧ (yb_run ctxW Mode.encrypt [st "a.txt"] [st "a.txt", st "k.pub"]).2.total
        = [st "a.txt"].length
      ∧ ¬ (yb_run ctxW Mode.encrypt [st "a.txt"] [st "a.txt", st "k.pub"]).2.total = 0)
    ∧ ((ag_run ctxW Mode.encrypt [st "a.txt"] [st "a.txt", st "k.pub"]).2.succ
        ≤ (ag_run ctxW Mode.encrypt [st "a.txt"] [st "a.txt", st "k.pub"]).2.total
      ∧ ((ag_run ctxW Mode.encrypt [st "a.txt"] [st "a.txt", st "k.pub"]).2.total = 0
        ↔ preFailsA ctxW Mode.encrypt [st "a.txt"] = true)) :=
  C2_success_le_total ctxW Mode.encrypt [st "a.txt"] [st "a.txt", st "k.pub"] (by decide)

/-! ### C1: per-item error isolation -/

/-- C1.  With arbitrary per-item tool behaviour (any exit codes, any
stderr, output written or not), yubiage_ui's worker emits exactly one
progress value per item — so no item's failure ever stops the loop — and
every error emission names the base name of one of the batch's files.
Under the hypothesis that ageyub_ui's pre-processing succeeds, the same
holds for ageyub_ui's worker, whose per-item progress emissions follow
the pre-processing ticks and whose errors name the processed (possibly
archived) file of the batch. -/
theorem C1_per_item_isolation (ctx : Ctx) (mode : Mode) (inputs : List FPath) (fs0 : FS)
    (hpre : preFailsA ctx mode inputs = false) :
    (progsOf (yb_run ctx mode inputs fs0).1.evs
        = (List.range inputs.length).map
            (fun k : Nat => ((k : ℚ) + 1) / (inputs.length : ℚ))
      ∧ ∀ e ∈ errsOf (yb_run ctx mode inputs fs0).1.evs, e.1 ∈ inputs.map basenameP)
    ∧ ((∃ k, progsOf (ag_run ctx mode inputs fs0).1.evs
          = List.replicate k ((1 : ℚ) / 100)
            ++ (List.range inputs.length).map
              (fun k : Nat => ((k : ℚ) + 1) / (inputs.length : ℚ)))
      ∧ ∀ e ∈ errsOf (ag_run ctx mode inputs fs0).1.evs,
          e.1 ∈ (processedA ctx mode inputs).map basenameP) := by
  constructor
  · constructor
    · unfold yb_run
      simp only
      rw [ybLoop_progs ctx mode inputs.length inputs 0 ⟨fs0, [], 0⟩]
      simp only [progsOf, List.filterMap_nil, List.nil_append]
      refine List.map_congr_left ?_
      intro k hk
      norm_num
    · intro e he
      unfold yb_run at he
      simp only at he
      rcases ybLoop_err_names ctx mode inputs.length inputs 0 ⟨fs0, [], 0⟩ e he with h | h
      · simp [errsOf] at h
      · exact h
  · obtain ⟨o, heq, hproc, hlen, k, hevs⟩ := (agPre_spec ctx mode inputs fs0).2 hpre
    constructor
    · refine ⟨k, ?_⟩
      unfold ag_run
      rw [heq]
      simp only
      rw [agLoop_progs ctx mode o.fmap o.processed.length o.processed 0 ⟨o.fs, o.evs, 0⟩]
      rw [hevs, hlen]
      congr 1
      · unfold progsOf
        rw [List.filterMap_replicate]
      · refine List.map_congr_left ?_
        intro j hj
        norm_num
    · intro e he
      unfold ag_run at he
      rw [heq] at he
      simp only at he
      rcases agLoop_err_names ctx mode o.fmap o.processed.length o.processed 0
          ⟨o.fs, o.evs, 0⟩ e he with h | h
      · rw [hevs] at h
        unfold errsOf at h
        rw [List.filterMap_replicate] at h
        simp at h
      · rw [hproc] at h
        exact h

/-- Witness for `C1_per_item_isolation`: a two-file batch in which the
second invocation fails. -/
theorem C1_per_item_isolation_witness :
    (progsOf (yb_run ctxC3 Mode.decrypt [st "a.age", st "b.age"] []).1.evs
        = (List.range ([st "a.age", st "b.age"] : List FPath).length).map
            (fun k : Nat => ((k : ℚ) + 1) / (([st "a.age", st "b.age"] : List FPath).length : ℚ))
      ∧ ∀ e ∈ errsOf (yb_run ctxC3 Mode.decrypt [st "a.age", st "b.age"] []).1.evs,
          e.1 ∈ ([st "a.age", st "b.age"] : List FPath).map basenameP)
    ∧ ((∃ k, progsOf (ag_run ctxC3 Mode.decrypt [st "a.age", st "b.age"] []).1.evs
          = List.replicate k ((1 : ℚ) / 100)
            ++ (List.range ([st "a.age", st "b.age"] : List FPath).length).map
              (fun k : Nat => ((k : ℚ) + 1) / (([st "a.age", st "b.age"] : List FPath).length : ℚ)))
      ∧ ∀ e ∈ errsOf (ag_run ctxC3 Mode.decrypt [st "a.age", st "b.age"] []).1.evs,
          e.1 ∈ (processedA ctxC3 Mode.decrypt [st "a.age", st "b.age"]).map basenameP) :=
  C1_per_item_isolation ctxC3 Mode.decrypt [st "a.age", st "b.age"] [] (by decide)

/-! ### C3: progress emissions -/

set_option maxRecDepth 8000 in
/-- C3 counterexample.  In ageyub_ui, archiving a directory during
pre-processing emits an extra progress value `0.01`; in a 101-item
encrypt batch whose first item is a directory the next emission is
`1/101 < 0.01`, so the emitted progress sequence is not monotonically
increasing. -/
theorem C3_counterexample :
    ¬ List.Chain' (· ≤ ·) (progsOf (ag_run ctxC3 Mode.encrypt inputsC3 []).1.evs) := by
  have hall : inputsC3.all (fun p => ! (ctxC3.isDir p && ! ctxC3.archOk p)) = true := by
    decide
  have hok : agPre ctxC3 Mode.encrypt inputsC3 [] = .ok
      { processed := [] ++ inputsC3.map (procOf ctxC3),
        fmap := (inputsC3.map (fun p => (procOf ctxC3 p, p))).reverse ++ [],
        tars := [] ++ (inputsC3.filter ctxC3.isDir).map (ag_tarName ctxC3),
        fs := inputsC3.foldl
          (fun f p => if ctxC3.isDir p then insertFS (ag_tarName ctxC3 p) f else f) [],
        evs := []
          ++ List.replicate (inputsC3.countP ctxC3.isDir) (Ev.prog (1 / 100)) } :=
    agPreGo_ok_spec ctxC3 inputsC3 ⟨[], [], [], [], []⟩ hall
  intro hch
  unfold ag_run at hch
  rw [hok] at hch
  simp only at hch
  rw [agLoop_progs] at hch
  have hcnt : inputsC3.countP ctxC3.isDir = 1 := by decide
  have hlen : ([] ++ inputsC3.map (procOf ctxC3)).length = 101 := by
    simp [inputsC3]
  rw [hlen] at hch
  simp only [List.nil_append, hcnt] at hch
  have hrep : progsOf (List.replicate 1 (Ev.prog (1 / 100))) = [(1 : ℚ) / 100] := by
    unfold progsOf
    rw [List.filterMap_replicate]
    rfl
  rw [hrep] at hch
  rw [show (101 : Nat) = 100 + 1 from rfl, List.range_succ_eq_map] at hch
  rw [List.map_cons, List.singleton_append] at hch
  have hle := (List.chain'_cons.1 hch).1
  norm_num at hle

lemma progress_list_spec (N : Nat) (hN : 1 ≤ N) :
    List.Chain' (· < ·)
      ((List.range N).map (fun k : Nat => ((k : ℚ) + 1) / (N : ℚ)))
    ∧ ∃ L', (List.range N).map (fun k : Nat => ((k : ℚ) + 1) / (N : ℚ)) = L' ++ [1]
      ∧ (1 : ℚ) ∉ L' := by
  have hNpos : (0 : ℚ) < (N : ℚ) := by
    exact_mod_cast hN
  constructor
  · refine List.Pairwise.chain' ?_
    rw [List.pairwise_map]
    refine (List.pairwise_lt_range N).imp ?_
    intro a b hab
    rw [div_lt_div_iff_of_pos_right hNpos]
    exact_mod_cast Nat.add_lt_add_right hab 1
  · obtain ⟨M, hM⟩ : ∃ M, N = M + 1 := ⟨N - 1, by omega⟩
    subst hM
    rw [List.range_succ, List.map_append, List.map_singleton]
    refine ⟨(List.range M).map (fun k : Nat => ((k : ℚ) + 1) / (((M + 1 : Nat)) : ℚ)),
      ?_, ?_⟩
    · congr 1
      have hne' : ((M : ℚ) + 1) ≠ 0 := by positivity
      push_cast
      simp [div_self hne']
    · intro hmem
      rw [List.mem_map] at hmem
      obtain ⟨k, hk, hval⟩ := hmem
      rw [List.mem_range] at hk
      have hne' : ((M : ℚ) + 1) ≠ 0 := by positivity
      rw [div_eq_one_iff_eq (by push_cast at hNpos ⊢; exact hNpos.ne')] at hval
      have hlt : (k : ℚ) + 1 < (M : ℚ) + 1 := by
        exact_mod_cast Nat.add_lt_add_right hk 1
      rw [hval] at hlt
      push_cast at hlt
      simp at hlt

/-- C3 amended.  yubiage_ui's worker emits exactly one progress value per
item, the sequence is `1/N, …, N/N`, strictly increasing, with `1.0`
emitted exactly once, after the last item (so a 3-file batch with one
failure emits exactly `1/3, 2/3, 1`).  ageyub_ui's worker additionally
emits `0.01` once per archived directory *before* the loop; apart from
these pre-processing ticks the same per-item sequence follows, and `1.0`
is still emitted exactly once, at the end — but the full sequence is
monotone only while `1/N` does not drop below `0.01`
(see the 101-item counterexample). -/
theorem C3_progress_amended (ctx : Ctx) (mode : Mode) (inputs : List FPath) (fs0 : FS)
    (hne : ¬ inputs = []) (hpre : preFailsA ctx mode inputs = false) :
    (progsOf (yb_run ctx mode inputs fs0).1.evs
        = (List.range inputs.length).map
            (fun k : Nat => ((k : ℚ) + 1) / (inputs.length : ℚ))
      ∧ List.Chain' (· < ·) (progsOf (yb_run ctx mode inputs fs0).1.evs)
      ∧ ∃ L', progsOf (yb_run ctx mode inputs fs0).1.evs = L' ++ [1] ∧ (1 : ℚ) ∉ L')
    ∧ ((∃ k, progsOf (ag_run ctx mode inputs fs0).1.evs
          = List.replicate k ((1 : ℚ) / 100)
            ++ (List.range inputs.length).map
              (fun k : Nat => ((k : ℚ) + 1) / (inputs.length : ℚ)))
      ∧ ∃ L', progsOf (ag_run ctx mode inputs fs0).1.evs = L' ++ [1] ∧ (1 : ℚ) ∉ L') := by
  have hN : 1 ≤ inputs.length := by
    rcases inputs with _ | ⟨x, rest⟩
    · exact absurd rfl hne
    · simp
  obtain ⟨hchain, L', hL', hnot⟩ :=
    And.intro (progress_list_spec inputs.length hN).1 (progress_list_spec inputs.length hN).2
  have hy : progsOf (yb_run ctx mode inputs fs0).1.evs
      = (List.range inputs.length).map
          (fun k : Nat => ((k : ℚ) + 1) / (inputs.length : ℚ)) := by
    unfold yb_run
    simp only
    rw [ybLoop_progs ctx mode inputs.length inputs 0 ⟨fs0, [], 0⟩]
    simp only [progsOf, List.filterMap_nil, List.nil_append]
    refine List.map_congr_left ?_
    intro k hk
    norm_num
  refine ⟨⟨hy, by rw [hy]; exact hchain, ⟨L', by rw [hy]; exact hL', hnot⟩⟩, ?_⟩
  obtain ⟨o, heq, hproc, hlen, k, hevs⟩ := (agPre_spec ctx mode inputs fs0).2 hpre
  have ha : progsOf (ag_run ctx mode inputs fs0).1.evs
      = List.replicate k ((1 : ℚ) / 100)
        ++ (List.range inputs.length).map
          (fun j : Nat => ((j : ℚ) + 1) / (inputs.length : ℚ)) := by
    unfold ag_run
    rw [heq]
    simp only
    rw [agLoop_progs ctx mode o.fmap o.processed.length o.processed 0 ⟨o.fs, o.evs, 0⟩]
    rw [hevs, hlen]
    congr 1
    · unfold progsOf
      rw [List.filterMap_replicate]
    · refine List.map_congr_left ?_
      intro j hj
      norm_num
  refine ⟨⟨k, ha⟩, ?_⟩
  refine ⟨List.replicate k ((1 : ℚ) / 100) ++ L', ?_, ?_⟩
  · rw [ha, hL', List.append_assoc]
  · intro hmem
    rcases List.mem_append.1 hmem with h | h
    · rw [List.mem_replicate] at h
      norm_num at h
    · exact hnot h

/-- Witness for `C3_progress_amended`: a 3-file decrypt batch in which
every item fails (no identity key), emitting exactly `1/3, 2/3, 1`. -/
theorem C3_progress_amended_witness :
    progsOf (yb_run ctxC3 Mode.decrypt [st "a.age", st "b.age", st "c.age"] []).1.evs
      = (List.range ([st "a.age", st "b.age", st "c.age"] : List FPath).length).map
          (fun k : Nat =>
            ((k : ℚ) + 1) / (([st "a.age", st "b.age", st "c.age"] : List FPath).length : ℚ)) :=
  (C3_progress_amended ctxC3 Mode.decrypt [st "a.age", st "b.age", st "c.age"] []
    (by decide) (by decide)).1.1

/-! ### C7: empty key material fails before the tool is spawned -/

lemma ybLoop_append (ctx : Ctx) (mode : Mode) (total : Nat) :
    ∀ (a b : List FPath) (i : Nat) (stt : St),
      ybLoop ctx mode total i (a ++ b) stt
        = ybLoop ctx mode total (i + a.length) b (ybLoop ctx mode total i a stt) := by
  intro a
  induction a with
  | nil => intro b i stt; simp [ybLoop]
  | cons x rest ih =>
    intro b i stt
    rw [List.cons_append, ybLoop, ih, ybLoop]
    congr 1
    simp only [List.length_cons]
    omega

lemma ybLoop_evs_mono (ctx : Ctx) (mode : Mode) (total : Nat) :
    ∀ (l : List FPath) (i : Nat) (stt : St) (e : Ev),
      e ∈ stt.evs → e ∈ (ybLoop ctx mode total i l stt).evs := by
  intro l
  induction l with
  | nil => intro i stt e he; rw [ybLoop]; exact he
  | cons x rest ih =>
    intro i stt e he
    rw [ybLoop]
    exact ih (i + 1) _ e (List.mem_append_left _ he)

lemma ybLoop_invokes (ctx : Ctx) (mode : Mode) (total : Nat) :
    ∀ (l : List FPath) (i : Nat) (stt : St),
      ∀ j ∈ invokesOf (ybLoop ctx mode total i l stt).evs,
        j ∈ invokesOf stt.evs ∨ (i ≤ j ∧ j < i + l.length) := by
  intro l
  induction l with
  | nil => intro i stt j hj; rw [ybLoop] at hj; exact Or.inl hj
  | cons x rest ih =>
    intro i stt j hj
    rw [ybLoop] at hj
    rcases ih (i + 1) _ j hj with h | h
    · simp only [invokesOf_append] at h
      rcases List.mem_append.1 h with h1 | h2
      · exact Or.inl h1
      · have := ybItem_invoke_idx ctx mode i total stt.fs x j h2
        exact Or.inr (by simp [this])
    · exact Or.inr (by simp only [List.length_cons]; omega)

lemma ybItemTry_empty_content (ctx : Ctx) (i : Nat) (fs : FS) (input : FPath)
    (hkeys : ¬ ctx.keys = [])
    (hempty : recipientsContent ctx.klines
      (insertFS (tempRecPath ctx.cwd ctx.pidS input) fs) ctx.keys = []) :
    ybItemTry ctx Mode.encrypt i fs input
      = ⟨[Ev.err (basenameP input) (st "Recipient key file is empty or invalid.")],
          insertFS (tempRecPath ctx.cwd ctx.pidS input) fs, false,
          some (tempRecPath ctx.cwd ctx.pidS input), none⟩ := by
  unfold ybItemTry
  simp only
  rw [if_neg hkeys, if_pos hempty]

/-- C7.  In an encrypt batch with at least one key path dropped, an item
whose recipient key files — skipping files that do not exist, discarding
comment lines — produce empty combined content fails with the validation
error `Recipient key file is empty or invalid.`, and the external tool is
never launched for that item (no invocation carries its loop index). -/
theorem C7_empty_key_material (ctx : Ctx) (inputs : List FPath) (fs0 : FS)
    (i : Nat) (hi : i < inputs.length) (hkeys : ¬ ctx.keys = [])
    (hempty : recipientsContent ctx.klines
      (insertFS (tempRecPath ctx.cwd ctx.pidS inputs[i])
        ((ybLoop ctx Mode.encrypt inputs.length 0 (inputs.take i) ⟨fs0, [], 0⟩).fs))
      ctx.keys = []) :
    (basenameP inputs[i], st "Recipient key file is empty or invalid.")
        ∈ errsOf (yb_run ctx Mode.encrypt inputs fs0).1.evs
    ∧ ¬ i ∈ invokesOf (yb_run ctx Mode.encrypt inputs fs0).1.evs := by
  have hsplit : inputs.take i ++ inputs[i] :: inputs.drop (i + 1) = inputs := by
    rw [← List.drop_eq_getElem_cons hi, List.take_append_drop]
  have hlt : (inputs.take i).length = i := by
    rw [List.length_take]
    omega
  have hrun : (yb_run ctx Mode.encrypt inputs fs0).1.evs
      = (ybLoop ctx Mode.encrypt inputs.length (i + 1) (inputs.drop (i + 1))
          ⟨(ybItem ctx Mode.encrypt i inputs.length
              ((ybLoop ctx Mode.encrypt inputs.length 0 (inputs.take i) ⟨fs0, [], 0⟩).fs)
              inputs[i]).2.1,
            (ybLoop ctx Mode.encrypt inputs.length 0 (inputs.take i) ⟨fs0, [], 0⟩).evs
              ++ (ybItem ctx Mode.encrypt i inputs.length
                ((ybLoop ctx Mode.encrypt inputs.length 0 (inputs.take i) ⟨fs0, [], 0⟩).fs)
                inputs[i]).1,
            (ybLoop ctx Mode.encrypt inputs.length 0 (inputs.take i) ⟨fs0, [], 0⟩).succ
              + (if (ybItem ctx Mode.encrypt i inputs.length
                  ((ybLoop ctx Mode.encrypt inputs.length 0 (inputs.take i) ⟨fs0, [], 0⟩).fs)
                  inputs[i]).2.2 then 1 else 0)⟩).evs := by
    unfold yb_run
    simp only
    conv_lhs => rw [← hsplit]
    rw [ybLoop_append, hlt, ybLoop]
    simp [hsplit]
  have hitem : (ybItem ctx Mode.encrypt i inputs.length
      ((ybLoop ctx Mode.encrypt inputs.length 0 (inputs.take i) ⟨fs0, [], 0⟩).fs)
      inputs[i]).1
    = [Ev.err (basenameP inputs[i]) (st "Recipient key file is empty or invalid."),
       Ev.prog ((i + 1 : ℚ) / (inputs.length : ℚ))] := by
    unfold ybItem
    rw [ybItemTry_empty_content ctx i _ inputs[i] hkeys hempty]
    rfl
  constructor
  · rw [hrun]
    unfold errsOf
    rw [List.mem_filterMap]
    refine ⟨Ev.err (basenameP inputs[i])
      (st "Recipient key file is empty or invalid."), ?_, rfl⟩
    refine ybLoop_evs_mono ctx Mode.encrypt inputs.length _ _ _ _ ?_
    refine List.mem_append_right _ ?_
    rw [hitem]
    simp
  · rw [hrun]
    intro hinv
    rcases ybLoop_invokes ctx Mode.encrypt inputs.length _ _ _ i hinv with h | h
    · simp only [invokesOf_append] at h
      rcases List.mem_append.1 h with h1 | h2
      · rcases ybLoop_invokes ctx Mode.encrypt inputs.length _ _ _ i h1 with h3 | h3
        · simp [invokesOf] at h3
        · omega
      · rw [hitem] at h2
        simp [invokesOf] at h2
    · omega

/-- Witness for `C7_empty_key_material`: a single-file encrypt batch with
one key file whose content is only comment lines. -/
theorem C7_empty_key_material_witness :
    (basenameP (([st "a.txt"] : List FPath)[0]),
        st "Recipient key file is empty or invalid.")
      ∈ errsOf (yb_run
          { klines := fun _ => [st "# comment line\n", st "   \n"],
            cwd := st "/w", pidS := st "7", keys := [st "k.pub"],
            ienv := fun _ => ⟨0, st "", true⟩,
            isDir := fun _ => false, archOk := fun _ => true,
            archMsg := fun _ => st "x" }
          Mode.encrypt [st "a.txt"] [st "a.txt", st "k.pub"]).1.evs
    ∧ ¬ 0 ∈ invokesOf (yb_run
          { klines := fun _ => [st "# comment line\n", st "   \n"],
            cwd := st "/w", pidS := st "7", keys := [st "k.pub"],
            ienv := fun _ => ⟨0, st "", true⟩,
            isDir := fun _ => false, archOk := fun _ => true,
            archMsg := fun _ => st "x" }
          Mode.encrypt [st "a.txt"] [st "a.txt", st "k.pub"]).1.evs :=
  C7_empty_key_material
    { klines := fun _ => [st "# comment line\n", st "   \n"],
      cwd := st "/w", pidS := st "7", keys := [st "k.pub"],
      ienv := fun _ => ⟨0, st "", true⟩,
      isDir := fun _ => false, archOk := fun _ => true,
      archMsg := fun _ => st "x" }
    [st "a.txt"] [st "a.txt", st "k.pub"] 0 (by decide) (by decide) (by decide)

/-! ### C8: directory encryption output -/

lemma mem_insertFS {p q : FPath} {fs : FS} : p ∈ insertFS q fs ↔ p = q ∨ p ∈ fs := by
  unfold insertFS
  simp only [List.mem_cons, List.mem_filter, decide_eq_true_eq]
  constructor
  · rintro (h | h)
    · exact Or.inl h
    · exact Or.inr h.1
  · rintro (h | h)
    · exact Or.inl h
    · by_cases hq : p = q
      · exact Or.inl hq
      · exact Or.inr ⟨h, hq⟩

lemma mem_removeFS {p q : FPath} {fs : FS} : p ∈ removeFS q fs ↔ p ∈ fs ∧ ¬ p = q := by
  unfold removeFS
  simp [List.mem_filter]

lemma ne_of_getLast?_ne {p q : FPath} (h : ¬ p.getLast? = q.getLast?) : ¬ p = q :=
  fun he => h (he ▸ rfl)

lemma getLast?_append_right {a b : FPath} {c : Char} (hb : b.getLast? = some c) :
    (a ++ b).getLast? = some c := by
  rw [List.getLast?_append, hb]
  rfl

lemma getLast?_joinP {a b : FPath} {c : Char} (hb : b.getLast? = some c) :
    (joinP a b).getLast? = some c := by
  unfold joinP
  split
  · exact hb
  · split
    · exact hb
    · split
      · exact getLast?_append_right hb
      · have : a ++ '/' :: b = a ++ ['/'] ++ b := by simp
        rw [this]
        exact getLast?_append_right hb

lemma tempRecPath_getLast (cwd pidS input : FPath) :
    (tempRecPath cwd pidS input).getLast? = some 't' := by
  unfold tempRecPath
  refine getLast?_joinP (getLast?_append_right ?_)
  rfl

lemma ag_tarName_getLast (ctx : Ctx) (p : FPath) :
    (ag_tarName ctx p).getLast? = some 'z' := by
  unfold ag_tarName
  refine getLast?_joinP (getLast?_append_right ?_)
  rfl

lemma dirAge_getLast (D : FPath) : (D ++ st ".Dir.age").getLast? = some 'e' :=
  getLast?_append_right rfl

lemma lookupFM_const (key v : FPath) :
    ∀ entries : List (FPath × FPath),
      (∀ e ∈ entries, e.1 = key → e.2 = v) → (∃ e ∈ entries, e.1 = key) →
      lookupFM entries key = v := by
  intro entries
  induction entries with
  | nil => intro _ hex; simp at hex
  | cons e rest ih =>
    intro hall hex
    rw [lookupFM]
    by_cases hk : e.1 = key
    · rw [if_pos hk]
      exact hall e (by simp) hk
    · rw [if_neg hk]
      refine ih (fun x hx h => hall x (by simp [hx]) h) ?_
      obtain ⟨x, hx, hxe⟩ := hex
      rcases List.mem_cons.1 hx with h | h
      · exact absurd (h ▸ hxe) hk
      · exact ⟨x, h, hxe⟩

lemma agLoop_append (ctx : Ctx) (mode : Mode) (fmap : List (FPath × FPath)) (total : Nat) :
    ∀ (a b : List FPath) (i : Nat) (stt : St),
      agLoop ctx mode fmap total i (a ++ b) stt
        = agLoop ctx mode fmap total (i + a.length) b (agLoop ctx mode fmap total i a stt) := by
  intro a
  induction a with
  | nil => intro b i stt; simp [agLoop]
  | cons x rest ih =>
    intro b i stt
    rw [List.cons_append, agLoop, ih, agLoop]
    congr 1
    simp only [List.length_cons]
    omega

lemma agLoop_fs_evs_indep (ctx : Ctx) (mode : Mode) (fmap : List (FPath × FPath))
    (total : Nat) :
    ∀ (l : List FPath) (i : Nat) (fs : FS) (evs evs' : List Ev) (s s' : Nat),
      (agLoop ctx mode fmap total i l ⟨fs, evs, s⟩).fs
        = (agLoop ctx mode fmap total i l ⟨fs, evs', s'⟩).fs := by
  intro l
  induction l with
  | nil => intro i fs evs evs' s s'; rw [agLoop, agLoop]
  | cons x rest ih =>
    intro i fs evs evs' s s'
    rw [agLoop, agLoop]
    exact ih (i + 1) _ _ _ _ _

lemma agItemTry_fs_mem (ctx : Ctx) (fmap : List (FPath × FPath)) (idx : Nat)
    (fs : FS) (input P : FPath) (hP : P ∈ fs)
    (h2 : ¬ P = input ++ st ".age") :
    P ∈ (agItemTry ctx Mode.encrypt fmap idx fs input).fs := by
  unfold agItemTry
  dsimp only
  split_ifs <;>
    simp only [mem_insertFS, mem_removeFS] <;>
    tauto

lemma itemFinally_fs_mem_encrypt (idx total : Nat) (r : ItemRes) (P : FPath)
    (hP : P ∈ r.fs) (h1 : ∀ t, r.tRec = some t → ¬ P = t) :
    P ∈ (itemFinally Mode.encrypt idx total r).2.1 := by
  unfold itemFinally
  dsimp only
  rw [if_neg (by decide : ¬ Mode.encrypt = Mode.decrypt)]
  rcases hr : r.tRec with _ | t
  · exact hP
  · dsimp only
    split
    · rw [mem_removeFS]
      exact ⟨hP, h1 t hr⟩
    · exact hP

lemma agItem_fs_mem (ctx : Ctx) (fmap : List (FPath × FPath)) (idx total : Nat)
    (fs : FS) (input P : FPath) (hP : P ∈ fs)
    (h1 : ¬ P = tempRecPath ctx.cwd ctx.pidS input)
    (h2 : ¬ P = input ++ st ".age") :
    P ∈ (agItem ctx Mode.encrypt fmap idx total fs input).2.1 := by
  have htry := agItemTry_fs_mem ctx fmap idx fs input P hP h2
  have htr : ∀ t, (agItemTry ctx Mode.encrypt fmap idx fs input).tRec = some t →
      t = tempRecPath ctx.cwd ctx.pidS input := by
    unfold agItemTry
    dsimp only
    split_ifs <;> simp
  unfold agItem
  exact itemFinally_fs_mem_encrypt idx total _ P htry
    (fun t ht => (htr t ht) ▸ h1)

lemma agLoop_mem_fs (ctx : Ctx) (fmap : List (FPath × FPath)) (total : Nat) :
    ∀ (l : List FPath) (i : Nat) (stt : St) (P : FPath),
      P ∈ stt.fs →
      (∀ q ∈ l, ¬ P = tempRecPath ctx.cwd ctx.pidS q ∧ ¬ P = q ++ st ".age") →
      P ∈ (agLoop ctx Mode.encrypt fmap total i l stt).fs := by
  intro l
  induction l with
  | nil => intro i stt P hP _; rw [agLoop]; exact hP
  | cons x rest ih =>
    intro i stt P hP hq
    rw [agLoop]
    refine ih (i + 1) _ P ?_ (fun q hqr => hq q (by simp [hqr]))
    exact agItem_fs_mem ctx fmap i total stt.fs x P hP
      (hq x (by simp)).1 (hq x (by simp)).2

lemma foldl_removeFS_subset :
    ∀ (l : List FPath) (fs : FS) (P : FPath),
      P ∈ l.foldl (fun f t => removeFS t f) fs → P ∈ fs := by
  intro l
  induction l with
  | nil => intro fs P h; exact h
  | cons t rest ih =>
    intro fs P h
    have := ih _ P h
    exact (mem_removeFS.1 this).1

lemma foldl_removeFS_not_mem :
    ∀ (l : List FPath) (fs : FS) (P : FPath), P ∈ l →
      ¬ P ∈ l.foldl (fun f t => removeFS t f) fs := by
  intro l
  induction l with
  | nil => intro fs P h; simp at h
  | cons t rest ih =>
    intro fs P h hmem
    rcases List.mem_cons.1 h with h1 | h2
    · subst h1
      have := foldl_removeFS_subset rest _ P hmem
      exact (mem_removeFS.1 this).2 rfl
    · exact ih _ P h2 hmem

lemma foldl_removeFS_mem (l : List FPath) (fs : FS) (P : FPath)
    (hP : P ∈ fs) (hni : ¬ P ∈ l) :
    P ∈ l.foldl (fun f t => removeFS t f) fs := by
  induction l generalizing fs with
  | nil => exact hP
  | cons t rest ih =>
    rw [List.foldl_cons]
    refine ih _ ?_ ?_
    · rw [mem_removeFS]
      exact ⟨hP, fun he => hni (by simp [he])⟩
    · intro hm
      exact hni (by simp [hm])

lemma agItemTry_dir_success (ctx : Ctx) (fmap : List (FPath × FPath)) (idx : Nat)
    (fs : FS) (input D : FPath)
    (hkeys : ¬ ctx.keys = [])
    (hcont : ¬ recipientsContent ctx.klines
      (insertFS (tempRecPath ctx.cwd ctx.pidS input) fs) ctx.keys = [])
    (hrc : (ctx.ienv idx).exitCode = 0)
    (hw : (ctx.ienv idx).writesOut = true)
    (hlook : lookupFM fmap input = D)
    (hdir : ctx.isDir D = true) :
    (D ++ st ".Dir.age") ∈ (agItemTry ctx Mode.encrypt fmap idx fs input).fs
    ∧ (agItemTry ctx Mode.encrypt fmap idx fs input).tRec
        = some (tempRecPath ctx.cwd ctx.pidS input) := by
  unfold agItemTry
  dsimp only
  rw [if_neg hkeys, if_neg hcont, hw, hrc, hlook, hdir]
  simp only [if_true, if_pos rfl]
  rw [if_pos (mem_insertFS.2 (Or.inl rfl))]
  exact ⟨mem_insertFS.2 (Or.inl rfl), trivial⟩

lemma preFailsA_false_all (ctx : Ctx) (inputs : List FPath)
    (hpre : preFailsA ctx Mode.encrypt inputs = false) :
    inputs.all (fun p => ! (ctx.isDir p && ! ctx.archOk p)) = true := by
  unfold preFailsA at hpre
  simp only [Mode.isEncrypt, Bool.true_and] at hpre
  rw [List.all_eq_true]
  intro p hp
  rw [List.any_eq_false] at hpre
  have h3 : (ctx.isDir p && ! ctx.archOk p) = false :=
    eq_false_of_ne_true (hpre p hp)
  simp [h3]

/-- C8 counterexample.  With a tool that exits 0 without producing its
output file, the directory item still counts as a success (the missing
raw output silently skips the rename), yet no `d.Dir.age` exists after
the batch. -/
theorem C8_counterexample :
    (ag_run ctxC8 Mode.encrypt [st "d"] [st "k.pub"]).2.succ = 1
    ∧ (ag_run ctxC8 Mode.encrypt [st "d"] [st "k.pub"]).2.total = 1
    ∧ ¬ (st "d" ++ st ".Dir.age") ∈ (ag_run ctxC8 Mode.encrypt [st "d"] [st "k.pub"]).1.fs := by
  decide

lemma agLoop_mem_through (ctx : Ctx) (FM : List (FPath × FPath)) (total : Nat)
    (l : List FPath) (i0 : Nat) (stt : St) (j : Nat) (hj : j < l.length) (P : FPath)
    (hitem : P ∈ (agItem ctx Mode.encrypt FM (i0 + j) total
        ((agLoop ctx Mode.encrypt FM total i0 (l.take j) stt).fs) (l.get ⟨j, hj⟩)).2.1)
    (hrest : ∀ q ∈ l.drop (j + 1),
        ¬ P = tempRecPath ctx.cwd ctx.pidS q ∧ ¬ P = q ++ st ".age") :
    P ∈ (agLoop ctx Mode.encrypt FM total i0 l stt).fs := by
  have hsp : l.take j ++ l.get ⟨j, hj⟩ :: l.drop (j + 1) = l := by
    rw [List.get_eq_getElem, ← List.drop_eq_getElem_cons hj, List.take_append_drop]
  have hlt : (l.take j).length = j := by
    rw [List.length_take]
    omega
  conv_lhs => rw [← hsp]
  rw [agLoop_append, hlt, agLoop]
  exact agLoop_mem_fs ctx FM total _ _ _ P hitem hrest

/-- C8 amended.  In an encrypt batch containing a directory `inputs[j]`
whose archiving succeeds and whose tool invocation exits 0 *and writes
its output*, after the batch completes `<directory>.Dir.age` exists and
the staged archive has been removed.  (Without the added
produced-its-output hypothesis the claim fails: see the counterexample,
where the rename is silently skipped yet the item counts as a success.)
The uniqueness hypotheses rule out distinct batch entries colliding with
the directory's archive name or with the final `.Dir` name. -/
theorem C8_dir_encrypt_amended (ctx : Ctx) (inputs : List FPath) (fs0 : FS)
    (j : Nat) (hj : j < inputs.length)
    (hdir : ctx.isDir inputs[j] = true)
    (hpre : preFailsA ctx Mode.encrypt inputs = false)
    (hkeys : ¬ ctx.keys = [])
    (hrc : (ctx.ienv j).exitCode = 0)
    (hw : (ctx.ienv j).writesOut = true)
    (hcont : ¬ recipientsContent ctx.klines
      (insertFS (tempRecPath ctx.cwd ctx.pidS (ag_tarName ctx inputs[j]))
        ((agLoop ctx Mode.encrypt ((inputs.map (fun p => (procOf ctx p, p))).reverse ++ [])
            ([] ++ inputs.map (procOf ctx)).length 0 ((inputs.map (procOf ctx)).take j)
            ⟨inputs.foldl
              (fun f p => if ctx.isDir p then insertFS (ag_tarName ctx p) f else f) fs0,
              [] ++ List.replicate (inputs.countP ctx.isDir) (Ev.prog (1 / 100)), 0⟩).fs))
      ctx.keys = [])
    (huniq : ∀ p ∈ inputs, procOf ctx p = ag_tarName ctx inputs[j] → p = inputs[j])
    (hnodup : ∀ p ∈ inputs, ¬ procOf ctx p = inputs[j] ++ st ".Dir") :
    (inputs[j] ++ st ".Dir.age") ∈ (ag_run ctx Mode.encrypt inputs fs0).1.fs
    ∧ ¬ ag_tarName ctx inputs[j] ∈ (ag_run ctx Mode.encrypt inputs fs0).1.fs := by
  have hall := preFailsA_false_all ctx inputs hpre
  have hok : agPre ctx Mode.encrypt inputs fs0 = .ok
      { processed := [] ++ inputs.map (procOf ctx),
        fmap := (inputs.map (fun p => (procOf ctx p, p))).reverse ++ [],
        tars := [] ++ (inputs.filter ctx.isDir).map (ag_tarName ctx),
        fs := inputs.foldl
          (fun f p => if ctx.isDir p then insertFS (ag_tarName ctx p) f else f) fs0,
        evs := []
          ++ List.replicate (inputs.countP ctx.isDir) (Ev.prog (1 / 100)) } :=
    agPreGo_ok_spec ctx inputs ⟨[], [], [], fs0, []⟩ hall
  have hjm : j < (inputs.map (procOf ctx)).length := by
    rw [List.length_map]
    exact hj
  have hin : (inputs.map (procOf ctx))[j] = ag_tarName ctx inputs[j] := by
    rw [List.getElem_map]
    unfold procOf
    rw [if_pos hdir]
  have hsplit : (inputs.map (procOf ctx)).take j
      ++ (inputs.map (procOf ctx))[j] :: (inputs.map (procOf ctx)).drop (j + 1)
      = inputs.map (procOf ctx) := by
    rw [← List.drop_eq_getElem_cons hjm, List.take_append_drop]
  have hlt : ((inputs.map (procOf ctx)).take j).length = j := by
    rw [List.length_take]
    omega
  have hPlast : (inputs[j] ++ st ".Dir.age").getLast? = some 'e' :=
    dirAge_getLast inputs[j]
  have hfmap : lookupFM ((inputs.map (fun p => (procOf ctx p, p))).reverse ++ [])
      (ag_tarName ctx inputs[j]) = inputs[j] := by
    rw [List.append_nil]
    refine lookupFM_const (ag_tarName ctx inputs[j]) inputs[j] _ ?_ ?_
    · intro e he hkey
      rw [List.mem_reverse, List.mem_map] at he
      obtain ⟨p, hp, rfl⟩ := he
      simp only at hkey ⊢
      rw [huniq p hp hkey]
    · refine ⟨(procOf ctx inputs[j], inputs[j]), ?_, ?_⟩
      · rw [List.mem_reverse, List.mem_map]
        exact ⟨inputs[j], inputs.getElem_mem hj, rfl⟩
      · simp only
        unfold procOf
        rw [if_pos hdir]
  unfold ag_run
  rw [hok]
  simp only [List.nil_append]
  simp only [List.nil_append] at hcont
  constructor
  · refine foldl_removeFS_mem _ _ _ ?_ ?_
    · refine agLoop_mem_through ctx _ _ _ 0 _ j hjm _ ?_ ?_
      · rw [Nat.zero_add, List.get_eq_getElem, hin]
        unfold agItem
        have htry := agItemTry_dir_success ctx
          ((inputs.map (fun p => (procOf ctx p, p))).reverse ++ []) j
          ((agLoop ctx Mode.encrypt
              ((inputs.map (fun p => (procOf ctx p, p))).reverse ++ [])
              (inputs.map (procOf ctx)).length 0 ((inputs.map (procOf ctx)).take j)
              ⟨inputs.foldl
                (fun f p => if ctx.isDir p then insertFS (ag_tarName ctx p) f else f) fs0,
                List.replicate (inputs.countP ctx.isDir) (Ev.prog (1 / 100)), 0⟩).fs)
          (ag_tarName ctx inputs[j]) inputs[j] hkeys hcont hrc hw hfmap hdir
        refine itemFinally_fs_mem_encrypt j _ _ _ htry.1 ?_
        intro t ht
        rw [htry.2] at ht
        have ht2 : t = tempRecPath ctx.cwd ctx.pidS (ag_tarName ctx inputs[j]) := by
          exact (Option.some.injEq _ _ ▸ ht).symm
        rw [ht2]
        refine ne_of_getLast?_ne ?_
        rw [hPlast, tempRecPath_getLast]
        decide
      · intro q hq
        constructor
        · refine ne_of_getLast?_ne ?_
          rw [hPlast, tempRecPath_getLast]
          decide
        · intro he
          have hq2 : q ∈ inputs.map (procOf ctx) :=
            List.drop_subset _ _ hq
          rw [List.mem_map] at hq2
          obtain ⟨p, hp, rfl⟩ := hq2
          have hassoc : inputs[j] ++ st ".Dir.age"
              = (inputs[j] ++ st ".Dir") ++ st ".age" := by
            rw [List.append_assoc]
            rfl
          rw [hassoc] at he
          exact hnodup p hp (List.append_cancel_right he).symm
    · intro hmem
      rw [List.mem_map] at hmem
      obtain ⟨q, hq, he⟩ := hmem
      have := ag_tarName_getLast ctx q
      rw [he, hPlast] at this
      exact absurd this (by decide)
  · refine foldl_removeFS_not_mem _ _ _ ?_
    rw [List.mem_map]
    exact ⟨inputs[j], List.mem_filter.2 ⟨inputs.getElem_mem hj, hdir⟩, rfl⟩

theorem C8_dir_encrypt_amended_witness :
    (st "d" ++ st ".Dir.age") ∈ (ag_run ctxW Mode.encrypt [st "d"] [st "k.pub"]).1.fs
    ∧ ¬ ag_tarName ctxW (st "d") ∈ (ag_run ctxW Mode.encrypt [st "d"] [st "k.pub"]).1.fs :=
  C8_dir_encrypt_amended ctxW [st "d"] [st "k.pub"] 0 (by decide) (by decide) (by decide)
    (by decide) (by decide) (by decide) (by decide) (by decide) (by decide)

/-! ### C5: no decrypt staging file remains -/

lemma infix_sep {m a b : FPath} {c : Char} (h : m <:+: a ++ c :: b) (hc : c ∉ m) :
    m <:+: a ∨ m <:+: b := by
  rw [List.isInfix_iff] at h
  obtain ⟨k, hk, hget⟩ := h
  rw [List.length_append, List.length_cons] at hk
  by_cases h1 : m.length + k ≤ a.length
  · left
    rw [List.isInfix_iff]
    refine ⟨k, h1, ?_⟩
    intro i hi
    have hg := hget i hi
    rwa [List.getElem?_append_left (by omega)] at hg
  · by_cases h2 : a.length < k
    · right
      rw [List.isInfix_iff]
      refine ⟨k - a.length - 1, by omega, ?_⟩
      intro i hi
      have hg := hget i hi
      rw [List.getElem?_append_right (by omega)] at hg
      rw [show i + k - a.length = i + (k - a.length - 1) + 1 by omega] at hg
      rwa [List.getElem?_cons_succ] at hg
    · exfalso
      have hi : a.length - k < m.length := by omega
      have hg := hget (a.length - k) hi
      rw [show a.length - k + k = a.length by omega] at hg
      rw [List.getElem?_append_right (by omega)] at hg
      rw [Nat.sub_self, List.getElem?_cons_zero, Option.some.injEq] at hg
      rw [hg] at hc
      exact hc (List.getElem_mem hi)

lemma infix_sep_last {m a b : FPath} {c : Char} (ha : a.getLast? = some c)
    (h : m <:+: a ++ b) (hc : c ∉ m) : m <:+: a ∨ m <:+: b := by
  obtain ⟨t, rfl⟩ := List.getLast?_eq_some_iff.1 ha
  rw [List.append_assoc, List.singleton_append] at h
  rcases infix_sep h hc with h1 | h1
  · exact Or.inl (h1.trans ( List.IsPrefix.isInfix (List.prefix_append t [c])))
  · exact Or.inr h1

lemma markerP_ne_nil (pidS : FPath) : ¬ markerP pidS = [] := by
  intro h
  have h2 : (markerP pidS).length = 0 := by rw [h]; rfl
  unfold markerP at h2
  rw [List.length_append] at h2
  have h3 : (st ".temp_decrypted_").length = 16 := by decide
  omega

lemma dot_mem_markerP (pidS : FPath) : '.' ∈ markerP pidS := by
  unfold markerP
  rw [List.mem_append]
  exact Or.inl (by decide)

lemma sep_not_mem_markerP {pidS : FPath} (hpid : ∀ c ∈ pidS, c.isDigit = true)
    {c : Char} (hc1 : ¬ c ∈ st ".temp_decrypted_") (hc2 : c.isDigit = false) :
    ¬ c ∈ markerP pidS := by
  unfold markerP
  rw [List.mem_append]
  rintro (h | h)
  · exact hc1 h
  · rw [hpid c h] at hc2
    simp at hc2

lemma rev_dropWhile_pre (q : Char → Bool) (l : FPath) :
    (l.reverse.dropWhile q).reverse <+: l := by
  have h2 := List.reverse_prefix.2 (List.dropWhile_suffix (l := l.reverse) q)
  rwa [List.reverse_reverse] at h2

lemma rev_takeWhile_suf (q : Char → Bool) (l : FPath) :
    (l.reverse.takeWhile q).reverse <:+ l := by
  have h2 := List.reverse_suffix.2 ( List.takeWhile_prefix (l := l.reverse) q)
  rwa [List.reverse_reverse] at h2

lemma basenameP_suf (p : FPath) : basenameP p <:+ p := by
  unfold basenameP
  exact rev_takeWhile_suf _ p

lemma dirnameP_pre (p : FPath) : dirnameP p <+: p := by
  unfold dirnameP
  simp only
  split
  · exact List.take_prefix _ _
  · exact (rev_dropWhile_pre _ _).trans ( List.take_prefix _ _)

lemma splitextP_fst_pre (p : FPath) : (splitextP p).1 <+: p := by
  unfold splitextP
  rcases hf : p.reverse.findIdx? (fun c => c = '.') with _ | j
  · simp
  · simp only
    split
    · simp
    · simpa using List.take_prefix _ _

lemma not_infix_of_pre {m x p : FPath} (hx : x <+: p) (hp : ¬ m <:+: p) :
    ¬ m <:+: x :=
  fun h => hp (h.trans ( List.IsPrefix.isInfix hx))

lemma not_infix_of_suf {m x p : FPath} (hx : x <:+ p) (hp : ¬ m <:+: p) :
    ¬ m <:+: x :=
  fun h => hp (h.trans ( List.IsSuffix.isInfix hx))

lemma marker_not_infix_fCand {pidS : FPath} (hpid : ∀ c ∈ pidS, c.isDigit = true)
    {d bb ext : FPath} (n : Nat)
    (hd : ¬ markerP pidS <:+: d) (hbb : ¬ markerP pidS <:+: bb)
    (hext : ¬ markerP pidS <:+: ext) :
    ¬ markerP pidS <:+: fCand d bb ext n := by
  have hsp : ' ' ∉ markerP pidS := sep_not_mem_markerP hpid (by decide) (by decide)
  have hop : '(' ∉ markerP pidS := sep_not_mem_markerP hpid (by decide) (by decide)
  have hcp : ')' ∉ markerP pidS := sep_not_mem_markerP hpid (by decide) (by decide)
  have hsl : '/' ∉ markerP pidS := sep_not_mem_markerP hpid (by decide) (by decide)
  have hcore : ¬ markerP pidS <:+: bb ++ ' ' :: '(' :: natChars n ++ ')' :: ext := by
    intro h
    rcases infix_sep h hcp with h1 | h1
    · rcases infix_sep h1 hsp with h2 | h2
      · exact hbb h2
      · rcases infix_sep (a := ([] : FPath)) (by simpa using h2) hop with h3 | h3
        · exact markerP_ne_nil pidS (List.infix_nil.1 h3)
        · have hdot := h3.subset (dot_mem_markerP pidS)
          have hdig := natChars_all_digit n '.' hdot
          exact absurd hdig (by decide)
    · exact hext h1
  intro h
  unfold fCand joinP at h
  split at h
  · exact hcore h
  · split at h
    · exact hcore h
    · split at h
      · rename_i hlast
        rcases infix_sep_last hlast h hsl with h4 | h4
        · exact hd h4
        · exact hcore h4
      · rcases infix_sep h hsl with h4 | h4
        · exact hd h4
        · exact hcore h4

lemma marker_not_infix_find_unique {pidS : FPath} (hpid : ∀ c ∈ pidS, c.isDigit = true)
    (fs : FS) (base : FPath) (hbase : ¬ markerP pidS <:+: base) :
    ¬ markerP pidS <:+: find_unique_filename fs base := by
  unfold find_unique_filename
  by_cases hp : base ∈ fs
  · rw [if_pos hp]
    simp only
    have hd : ¬ markerP pidS <:+: dirnameP base :=
      not_infix_of_pre (dirnameP_pre base) hbase
    have hbn : ¬ markerP pidS <:+: basenameP base :=
      not_infix_of_suf (basenameP_suf base) hbase
    have he1 : ¬ markerP pidS <:+: (splitextP (basenameP base)).2 :=
      not_infix_of_suf (splitextP_snd_suffix _) hbn
    split
    · rename_i pk hpk
      obtain ⟨p1, k1⟩ := pk
      obtain ⟨ds, hds1, hds2, hnm⟩ := stripNumSuffix_eq hpk
      have hpre : p1 <+: (splitextP (basenameP base)).1 := by
        rw [hnm]
        exact (List.prefix_append _ _).trans (List.prefix_append _ _)
      have hb1 : ¬ markerP pidS <:+: p1 :=
        not_infix_of_pre (hpre.trans (splitextP_fst_pre _)) hbn
      obtain ⟨m2, hm2, heq⟩ := findFrom_shape fs (dirnameP base) p1
        (splitextP (basenameP base)).2 (fs.length + 1) (k1 + 1)
      rw [heq]
      exact marker_not_infix_fCand hpid m2 hd hb1 he1
    · have hb1 : ¬ markerP pidS <:+: (splitextP (basenameP base)).1 :=
        not_infix_of_pre (splitextP_fst_pre _) hbn
      obtain ⟨m2, hm2, heq⟩ := findFrom_shape fs (dirnameP base)
        (splitextP (basenameP base)).1 (splitextP (basenameP base)).2
        (fs.length + 1) 1
      rw [heq]
      exact marker_not_infix_fCand hpid m2 hd hb1 he1
  · rw [if_neg hp]
    exact hbase

lemma ybItemTry_decrypt_meta (ctx : Ctx) (idx : Nat) (fs : FS) (input : FPath) :
    (ybItemTry ctx Mode.decrypt idx fs input).tRec = none
    ∧ (ybItemTry ctx Mode.decrypt idx fs input).tDec
      = some (tempDecPath ctx.pidS input) := by
  unfold ybItemTry
  simp only
  split_ifs <;> exact ⟨rfl, rfl⟩

lemma ybItemTry_decrypt_fs_mem (ctx : Ctx) (idx : Nat) (fs : FS) (input : FPath)
    {f : FPath} (hf : f ∈ (ybItemTry ctx Mode.decrypt idx fs input).fs) :
    f = tempDecPath ctx.pidS input ∨ f ∈ fs
    ∨ ∃ X : FS, f = find_unique_filename X (outBase input) := by
  unfold ybItemTry at hf
  simp only at hf
  split_ifs at hf
  all_goals simp only [mem_insertFS, mem_removeFS] at hf
  all_goals
    first
    | exact Or.inr (Or.inl hf)
    | exact hf.elim Or.inl (fun h => Or.inr (Or.inl h))
    | exact hf.elim (fun h => Or.inr (Or.inr ⟨_, h⟩))
        (fun h => h.1.elim Or.inl (fun h2 => Or.inr (Or.inl h2)))
    | exact hf.elim (fun h => Or.inr (Or.inr ⟨_, h⟩))
        (fun h => Or.inr (Or.inl h.1))

lemma ybItem_decrypt_marker (ctx : Ctx) (idx total : Nat) (fs : FS) (input : FPath)
    (hpid : ∀ c ∈ ctx.pidS, c.isDigit = true)
    (hfs : ∀ f ∈ fs, ¬ markerP ctx.pidS <:+: f)
    (hout : ¬ markerP ctx.pidS <:+: outBase input) :
    ∀ f ∈ (ybItem ctx Mode.decrypt idx total fs input).2.1,
      ¬ markerP ctx.pidS <:+: f := by
  intro f hf hinf
  have hmeta := ybItemTry_decrypt_meta ctx idx fs input
  unfold ybItem itemFinally at hf
  rw [hmeta.1, hmeta.2] at hf
  simp only at hf
  rw [if_pos trivial] at hf
  have hrf : f ∈ (ybItemTry ctx Mode.decrypt idx fs input).fs
      ∧ ¬ f = tempDecPath ctx.pidS input := by
    split at hf
    · exact ⟨(mem_removeFS.1 hf).1, (mem_removeFS.1 hf).2⟩
    · rename_i hnot
      refine ⟨hf, ?_⟩
      intro he
      rw [he] at hf
      exact hnot hf
  rcases ybItemTry_decrypt_fs_mem ctx idx fs input hrf.1 with h | h | ⟨X, h⟩
  · exact hrf.2 h
  · exact hfs f h hinf
  · rw [h] at hinf
    exact marker_not_infix_find_unique hpid X (outBase input) hout hinf

lemma ybLoop_decrypt_marker (ctx : Ctx) (total : Nat)
    (hpid : ∀ c ∈ ctx.pidS, c.isDigit = true) :
    ∀ (inputs : List FPath) (i : Nat) (stt : St),
      (∀ f ∈ stt.fs, ¬ markerP ctx.pidS <:+: f) →
      (∀ p ∈ inputs, ¬ markerP ctx.pidS <:+: outBase p) →
      ∀ f ∈ (ybLoop ctx Mode.decrypt total i inputs stt).fs,
        ¬ markerP ctx.pidS <:+: f := by
  intro inputs
  induction inputs with
  | nil =>
    intro i stt h1 h2 f hf
    rw [ybLoop] at hf
    exact h1 f hf
  | cons a rest ih =>
    intro i stt h1 h2 f hf
    rw [ybLoop] at hf
    refine ih (i + 1) _ ?_ (fun p hp => h2 p (List.mem_cons_of_mem a hp)) f hf
    exact ybItem_decrypt_marker ctx i total stt.fs a hpid h1
      (h2 a (List.mem_cons_self a rest))

/-- C5.  After a decrypt batch of yubiage_ui completes, no file whose name
contains the staging marker `.temp_decrypted_<pid>` remains on disk,
whatever mix of successes and failures the items had: on success the
staging file is renamed to a collision-free final name (which never
contains the marker), and on every failure path the `finally` block
removes it.  The hypotheses state the well-formedness of the run: the pid
renders as digits, no pre-existing file contains the marker, and no
input's natural output name contains the marker (an adversarial input
file literally named `x.temp_decrypted_<pid>.age` would make its *final*
decrypted output carry the marker, which is not a staging leak). -/
theorem C5_no_staging_file_remains (ctx : Ctx) (inputs : List FPath) (fs0 : FS)
    (hpid : ∀ c ∈ ctx.pidS, c.isDigit = true)
    (hfs0 : ∀ f ∈ fs0, ¬ markerP ctx.pidS <:+: f)
    (hout : ∀ p ∈ inputs, ¬ markerP ctx.pidS <:+: outBase p) :
    ∀ f ∈ (yb_run ctx Mode.decrypt inputs fs0).1.fs,
      ¬ markerP ctx.pidS <:+: f := by
  unfold yb_run
  exact ybLoop_decrypt_marker ctx inputs.length hpid inputs 0 ⟨fs0, [], 0⟩ hfs0 hout

theorem C5_no_staging_file_remains_witness :
    (∀ c ∈ ctxW.pidS, c.isDigit = true)
    ∧ (∀ f ∈ [st "doc.age", st "doc"], ¬ markerP ctxW.pidS <:+: f)
    ∧ (∀ p ∈ [st "doc.age", st "bad"], ¬ markerP ctxW.pidS <:+: outBase p)
    ∧ ∀ f ∈ (yb_run ctxW Mode.decrypt [st "doc.age", st "bad"]
        [st "doc.age", st "doc"]).1.fs,
      ¬ markerP ctxW.pidS <:+: f :=
  ⟨by decide, by decide, by decide,
    C5_no_staging_file_remains ctxW [st "doc.age", st "bad"] [st "doc.age", st "doc"]
      (by decide) (by decide) (by decide)⟩
